import Mathlib

/-!
Verification of the WASM forward-pass kernels in `src/wasm/src/lib.rs`
(dense_forward, mlp_forward, gru_step, lstm_step, rru_step).

Embedding conventions:
* `f32` values are modelled as real numbers (`ℝ`); the lane-grouped SIMD
  reduction of the source is embedded faithfully (`lanes`/`serialAcc`) and
  proved equal to the mathematical sum, which is exact over `ℝ`.
* raw pointers are modelled as `Option (Nat → ℝ)`: `none` is a null pointer,
  `some buf` is a readable/writable memory viewed as a total function from
  element offsets to values.  A store produces an updated function.
* each `for` loop of the source is an `iterN` fold applying iteration
  `0, 1, ..., n-1` in order.  Mutable accumulators that advance by a fixed
  amount per iteration (`w_index += in_size + 1`) are written in the closed
  form they provably hold at iteration `o` (`o * (in_size + 1)`).
* signed `i32` size parameters are modelled as `Int` and pass through
  `to_usize` exactly as in the source.
-/

/-- Model of `to_usize` (lib.rs lines 7-13): clamp a signed size to a
non-negative count. -/
def to_usize (value : Int) : Nat :=
  if value ≤ 0 then 0 else value.toNat

/-- Apply iterations `f 0, f 1, ..., f (n-1)` in order to a state,
modelling a `for i in 0..n` loop. -/
def iterN {α : Type} (f : Nat → α → α) : Nat → α → α
  | 0, s => s
  | n + 1, s => f n (iterN f n s)

/-- Write value `v` at offset `i` of a buffer. -/
def store {α : Type} (buf : Nat → α) (i : Nat) (v : α) : Nat → α :=
  fun k => if k = i then v else buf k

noncomputable section

/-- Read through a modelled pointer; only ever used where the pointer is
known to be non-null, the default is irrelevant. -/
def deref (o : Option (Nat → ℝ)) : Nat → ℝ :=
  o.getD fun _ => 0

/-- Accumulate `f start, f (start+1), ...` serially onto a running total,
modelling the scalar remainder loop of `dense_dot`. -/
def serialAcc (f : Nat → ℝ) (start : Nat) (t : ℝ) : Nat → ℝ
  | 0 => t
  | k + 1 => serialAcc f start t k + f (start + k)

/-- Four packed lane accumulators after `g` iterations of the SIMD loop of
`dense_dot` (lib.rs lines 27-32): lane `j` holds the sum of `f (4*i+j)`. -/
def lanes (f : Nat → ℝ) : Nat → ℝ × ℝ × ℝ × ℝ
  | 0 => (0, 0, 0, 0)
  | g + 1 =>
    let p := lanes f g
    (p.1 + f (4 * g), p.2.1 + f (4 * g + 1),
      p.2.2.1 + f (4 * g + 2), p.2.2.2 + f (4 * g + 3))

/-- The grouped-then-serial reduction of the source: run the SIMD loop for
`n / 4` groups, horizontally add the four lanes, then finish the remainder
with the scalar loop. -/
def dotAcc (f : Nat → ℝ) (n : Nat) : ℝ :=
  let q := n / 4
  let p := lanes f q
  serialAcc f (4 * q) (p.1 + p.2.1 + p.2.2.1 + p.2.2.2) (n - 4 * q)

/-- Model of `dense_dot` (lib.rs lines 22-43): SIMD-accelerated dot product
of `weights[0..n)` with `input[0..n)`. -/
def dense_dot (w x : Nat → ℝ) (n : Nat) : ℝ :=
  dotAcc (fun i => w i * x i) n

/-- Model of `dense_dot_mul` (lib.rs lines 51-79): the same reduction with
per-element terms `w[i] * (a[i] * b[i])`. -/
def dense_dot_mul (w a b : Nat → ℝ) (n : Nat) : ℝ :=
  dotAcc (fun i => w i * (a i * b i)) n

/-- Model of `sigmoid` (lib.rs lines 83-85). -/
def sigmoid (x : ℝ) : ℝ :=
  1 / (1 + Real.exp (-x))

/-- Output unit `o` of one Dense layer (lib.rs lines 127-132): at unit `o`
the running weight index holds `o * (in_size + 1)`; the unit value is
`tanh(dot(row_o, x, in_size) + bias_o)`. -/
def denseVal (w : Nat → ℝ) (inS : Nat) (x : Nat → ℝ) (o : Nat) : ℝ :=
  Real.tanh (dense_dot (fun k => w (o * (inS + 1) + k)) x inS +
    w (o * (inS + 1) + inS))

/-- One batch row of `dense_forward` (lib.rs lines 120-133): zero the whole
`output_stride` span of the output row, then store the `out_limit` unit
values. -/
def dense_row (w x : Nat → ℝ) (inS out_limit istr ostr : Nat) (b : Nat)
    (out : Nat → ℝ) : Nat → ℝ :=
  let ib := b * istr
  let ob := b * ostr
  let out1 := iterN (fun o s => store s (ob + o) 0) ostr out
  iterN (fun o s => store s (ob + o) (denseVal w inS (fun k => x (ib + k)) o))
    out_limit out1

/-- Model of `dense_forward` (lib.rs lines 94-135).  Returns the output
buffer after the call (unchanged on the null-pointer no-op path). -/
def dense_forward (weights input output : Option (Nat → ℝ))
    (in_size out_size batch_count input_stride output_stride : Int) :
    Option (Nat → ℝ) :=
  match weights, input, output with
  | some w, some x, some out0 =>
    let inS := to_usize in_size
    let outS := to_usize out_size
    let bc := to_usize batch_count
    let istr := to_usize input_stride
    let ostr := to_usize output_stride
    let out_limit := if outS < ostr then outS else ostr
    some (iterN (dense_row w x inS out_limit istr ostr) bc out0)
  | _, _, _ => output

/-- Ping-pong view of the MLP scratch buffer: the `split_at_mut` halves are
kept as base offsets and lengths into a single scratch memory
(lib.rs lines 191-192 and the `mem::swap` on line 213). -/
structure Ping where
  scr : Nat → ℝ
  curBase : Nat
  curLen : Nat
  nextBase : Nat
  nextLen : Nat

/-- One layer of `mlp_forward` (lib.rs lines 203-214): write the
`min(outs, next_len)` unit values into the next half (reading the current
half of the evolving scratch), then swap the halves.  The running weight
index advances by `ins + 1` per written unit. -/
def layerStep (w : Nat → ℝ) (sizes : Nat → Nat) (l : Nat) (st : Ping × Nat) :
    Ping × Nat :=
  let p := st.1
  let wi0 := st.2
  let ins := sizes l
  let outs := sizes (l + 1)
  let cnt := min outs p.nextLen
  let scr1 := iterN (fun o s => store s (p.nextBase + o)
      (denseVal (fun k => w (wi0 + k)) ins (fun k => s (p.curBase + k)) o))
    cnt p.scr
  (⟨scr1, p.nextBase, p.nextLen, p.curBase, p.curLen⟩, wi0 + cnt * (ins + 1))

/-- One batch row of `mlp_forward` (lib.rs lines 196-229): copy the input
row into the current half, run all adjacent layer pairs, zero the output
row span, then copy `min(out_limit, cur_len)` current-half values out. -/
def mlpRow (w x : Nat → ℝ) (sizes : Nat → Nat) (lc istr ostr : Nat) (b : Nat)
    (st : Ping × (Nat → ℝ)) : Ping × (Nat → ℝ) :=
  let p0 := st.1
  let out0 := st.2
  let ib := b * istr
  let scr1 := iterN (fun k s => store s (p0.curBase + k) (x (ib + k)))
    (sizes 0) p0.scr
  let res := iterN (layerStep w sizes) (lc - 1)
    (⟨scr1, p0.curBase, p0.curLen, p0.nextBase, p0.nextLen⟩, 0)
  let p2 := res.1
  let outS := sizes (lc - 1)
  let out_limit := if outS < ostr then outS else ostr
  let ob := b * ostr
  let out1 := iterN (fun o s => store s (ob + o) 0) ostr out0
  let out2 := iterN (fun o s => store s (ob + o) (p2.scr (p2.curBase + o)))
    (min out_limit p2.curLen) out1
  (p2, out2)

/-- The running maximum of the sanitized layer widths
(lib.rs lines 177-183). -/
def mlpMax (sizes : Nat → Nat) (lc : Nat) : Nat :=
  iterN (fun i m => if m < sizes i then sizes i else m) lc 0

/-- Model of `mlp_forward` (lib.rs lines 144-231).  Returns the pair of
buffers the call may write: the output buffer and the scratch buffer. -/
def mlp_forward (weights : Option (Nat → ℝ)) (layer_sizes : Option (Nat → Int))
    (input output : Option (Nat → ℝ))
    (layer_count batch_count input_stride output_stride : Int)
    (scratch : Option (Nat → ℝ)) (scratch_len : Int) :
    Option (Nat → ℝ) × Option (Nat → ℝ) :=
  match weights, layer_sizes, input, output, scratch with
  | some w, some ls, some x, some out0, some scr0 =>
    let lc := to_usize layer_count
    if lc < 2 then (some out0, some scr0) else
    let bc := to_usize batch_count
    let istr := to_usize input_stride
    let ostr := to_usize output_stride
    let slen := to_usize scratch_len
    let sizes : Nat → Nat := fun i => to_usize (ls i)
    let max_size := mlpMax sizes lc
    if max_size = 0 then (some out0, some scr0) else
    if slen < max_size * 2 then (some out0, some scr0) else
    let res := iterN (mlpRow w x sizes lc istr ostr) bc
      (⟨scr0, 0, max_size, max_size, slen - max_size⟩, out0)
    (some res.2, some res.1.scr)
  | _, _, _, _, _ => (output, scratch)

/-- Start offset of layer `l`'s Dense-style weight block inside the MLP
weight blob: each block `(ins, outs) = (sizes l, sizes (l+1))` occupies
`outs * (ins + 1)` floats. -/
def wOffset (sizes : Nat → Nat) : Nat → Nat
  | 0 => 0
  | l + 1 => wOffset sizes l + sizes (l + 1) * (sizes l + 1)

/-- The vector of values held by layer `l` of an MLP on one batch row:
stage 0 is the copied input row, stage `l+1` applies the Dense algebra of
layer block `l` to stage `l`. -/
def stageVals (w : Nat → ℝ) (sizes : Nat → Nat) (x : Nat → ℝ) :
    Nat → Nat → ℝ
  | 0 => x
  | l + 1 => denseVal (fun k => w (wOffset sizes l + k)) (sizes l)
      (stageVals w sizes x l)

/-- Row stride of the buffer feeding chained Dense call `l`: the original
input stride for the first call, afterwards the exact layer width. -/
def chainStride (sizes : Nat → Nat) (istr : Nat) : Nat → Nat
  | 0 => istr
  | l + 1 => sizes (l + 1)

/-- Buffers of a chain of `dense_forward` calls over consecutive weight
sub-blocks: buffer 0 is the input; buffer `l+1` is a fresh zero-initialised
buffer after the Dense call for layer block `l`, holding rows of width
`sizes (l+1)`. -/
def chainBuf (w : Nat → ℝ) (sizes : Nat → Nat) (bc istr : Nat) (x : Nat → ℝ) :
    Nat → (Nat → ℝ)
  | 0 => x
  | l + 1 => deref (dense_forward (some fun k => w (wOffset sizes l + k))
      (some (chainBuf w sizes bc istr x l)) (some fun _ => 0)
      (sizes l : Int) (sizes (l + 1) : Int) (bc : Int)
      (chainStride sizes istr l : Int) (sizes (l + 1) : Int))

/-- The output buffer of the last call of a `lc - 1`-long Dense chain: the
final `dense_forward` writes into the caller's output buffer with the
caller's output stride. -/
def chainOut (w : Nat → ℝ) (sizes : Nat → Nat) (bc istr ostr : Nat)
    (x out0 : Nat → ℝ) (lc : Nat) : Nat → ℝ :=
  deref (dense_forward (some fun k => w (wOffset sizes (lc - 2) + k))
    (some (chainBuf w sizes bc istr x (lc - 2))) (some out0)
    (sizes (lc - 2) : Int) (sizes (lc - 1) : Int) (bc : Int)
    (chainStride sizes istr (lc - 2) : Int) (ostr : Int))

/-- The two reachable orientations of the ping-pong halves: the current
half and the next half are the two `split_at_mut` pieces `[0, mx)` and
`[mx, slen)` of the scratch buffer, in either order. -/
def GoodPing (mx slen : Nat) (p : Ping) : Prop :=
  (p.curBase = 0 ∧ p.curLen = mx ∧ p.nextBase = mx ∧
    p.nextLen = slen - mx) ∨
  (p.curBase = mx ∧ p.curLen = slen - mx ∧ p.nextBase = 0 ∧ p.nextLen = mx)

/-- `mlp_forward`, on all-non-null pointers of the given shape, changes no
buffer whatever the buffer contents are. -/
def mlpNoOp (ls : Nat → Int)
    (layer_count batch_count input_stride output_stride scratch_len : Int) :
    Prop :=
  ∀ w x out scr : Nat → ℝ,
    mlp_forward (some w) (some ls) (some x) (some out) layer_count
      batch_count input_stride output_stride (some scr) scratch_len =
      (some out, some scr)

/-- Pre-activation sum of a recurrent gate row `j`: input-to-hidden dot at
blob offset `wbase`, plus hidden-to-hidden dot at `ubase`, plus the bias at
`bbase + j`, added in the source's accumulation order. -/
def cellPre (w : Nat → ℝ) (inS H wbase ubase bbase : Nat) (xr hr : Nat → ℝ)
    (j : Nat) : ℝ :=
  dense_dot (fun k => w (wbase + j * inS + k)) xr inS +
    dense_dot (fun k => w (ubase + j * H + k)) hr H + w (bbase + j)

/-- GRU update gate `z[j]` (lib.rs lines 292-308): blob blocks in order
`W_z W_r W_h U_z U_r U_h b_z b_r b_h`. -/
def gruZval (w : Nat → ℝ) (inS H : Nat) (xr hr : Nat → ℝ) (j : Nat) : ℝ :=
  sigmoid (cellPre w inS H 0 (3 * (H * inS)) (3 * (H * inS) + 3 * (H * H))
    xr hr j)

/-- GRU reset gate `r[j]` (lib.rs lines 294-309). -/
def gruRval (w : Nat → ℝ) (inS H : Nat) (xr hr : Nat → ℝ) (j : Nat) : ℝ :=
  sigmoid (cellPre w inS H (H * inS) (3 * (H * inS) + H * H)
    (3 * (H * inS) + 3 * (H * H) + H) xr hr j)

/-- GRU candidate `h_tilde` for unit `j` (lib.rs lines 312-323): the
hidden-to-hidden term is `dot_mul(U_h row, r, h_prev)`. -/
def gruHtilde (w : Nat → ℝ) (inS H : Nat) (xr rr hr : Nat → ℝ) (j : Nat) :
    ℝ :=
  Real.tanh (dense_dot (fun k => w (2 * (H * inS) + j * inS + k)) xr inS +
    dense_dot_mul (fun k => w (3 * (H * inS) + 2 * (H * H) + j * H + k))
      rr hr H +
    w (3 * (H * inS) + 3 * (H * H) + 2 * H + j))

/-- GRU state update for unit `j` (lib.rs lines 324-326):
`(1 - z) * h_prev + z * h_tilde` with all gates read from the same
pre-update hidden row `hr`. -/
def gruHval (w : Nat → ℝ) (inS H : Nat) (xr hr : Nat → ℝ) (j : Nat) : ℝ :=
  (1 - gruZval w inS H xr hr j) * hr j +
    gruZval w inS H xr hr j *
      gruHtilde w inS H xr (fun k => gruRval w inS H xr hr k) hr j

/-- The four GRU buffers (live state and the three exposed scratch
outputs). -/
structure GruState where
  h : Nat → ℝ
  z : Nat → ℝ
  r : Nat → ℝ
  hp : Nat → ℝ

/-- One batch row of `gru_step` (lib.rs lines 281-328): snapshot the hidden
row into `h_prev`, write both gate rows, then write the new hidden row. -/
def gruRow (w x : Nat → ℝ) (inS H istr : Nat) (b : Nat) (s : GruState) :
    GruState :=
  let ib := b * istr
  let sb := b * H
  let hp1 := iterN (fun j t => store t (sb + j) (s.h (sb + j))) H s.hp
  let zr := iterN (fun j (t : (Nat → ℝ) × (Nat → ℝ)) =>
      (store t.1 (sb + j)
        (gruZval w inS H (fun k => x (ib + k)) (fun k => hp1 (sb + k)) j),
       store t.2 (sb + j)
        (gruRval w inS H (fun k => x (ib + k)) (fun k => hp1 (sb + k)) j)))
    H (s.z, s.r)
  let z1 := zr.1
  let r1 := zr.2
  let h1 := iterN (fun j t => store t (sb + j)
      ((1 - z1 (sb + j)) * hp1 (sb + j) +
        z1 (sb + j) *
          gruHtilde w inS H (fun k => x (ib + k)) (fun k => r1 (sb + k))
            (fun k => hp1 (sb + k)) j))
    H s.h
  ⟨h1, z1, r1, hp1⟩

/-- Model of `gru_step` (lib.rs lines 239-330).  Returns the four buffers
`(h, z, r, h_prev)` after the call. -/
def gru_step (weights input h z r h_prev : Option (Nat → ℝ))
    (in_size hidden_size batch_count input_stride : Int) :
    Option (Nat → ℝ) × Option (Nat → ℝ) × Option (Nat → ℝ) ×
      Option (Nat → ℝ) :=
  match weights, input, h, z, r, h_prev with
  | some w, some x, some h0, some z0, some r0, some hp0 =>
    let inS := to_usize in_size
    let H := to_usize hidden_size
    let bc := to_usize batch_count
    let istr := to_usize input_stride
    if inS = 0 ∨ H = 0 ∨ bc = 0 then (some h0, some z0, some r0, some hp0)
    else
      let res := iterN (gruRow w x inS H istr) bc ⟨h0, z0, r0, hp0⟩
      (some res.h, some res.z, some res.r, some res.hp)
  | _, _, _, _, _, _ => (h, z, r, h_prev)

/-- LSTM gates for unit `j` (lib.rs lines 390-434): blob blocks in order
`W_i W_f W_o W_g U_i U_f U_o U_g b_i b_f b_o b_g`. -/
def lstmIval (w : Nat → ℝ) (inS H : Nat) (xr hr : Nat → ℝ) (j : Nat) : ℝ :=
  sigmoid (cellPre w inS H 0 (4 * (H * inS))
    (4 * (H * inS) + 4 * (H * H)) xr hr j)

/-- LSTM forget gate `f[j]`. -/
def lstmFval (w : Nat → ℝ) (inS H : Nat) (xr hr : Nat → ℝ) (j : Nat) : ℝ :=
  sigmoid (cellPre w inS H (H * inS) (4 * (H * inS) + H * H)
    (4 * (H * inS) + 4 * (H * H) + H) xr hr j)

/-- LSTM output gate `o[j]`. -/
def lstmOval (w : Nat → ℝ) (inS H : Nat) (xr hr : Nat → ℝ) (j : Nat) : ℝ :=
  sigmoid (cellPre w inS H (2 * (H * inS)) (4 * (H * inS) + 2 * (H * H))
    (4 * (H * inS) + 4 * (H * H) + 2 * H) xr hr j)

/-- LSTM cell candidate `g[j]` (tanh-activated). -/
def lstmGval (w : Nat → ℝ) (inS H : Nat) (xr hr : Nat → ℝ) (j : Nat) : ℝ :=
  Real.tanh (cellPre w inS H (3 * (H * inS)) (4 * (H * inS) + 3 * (H * H))
    (4 * (H * inS) + 4 * (H * H) + 3 * H) xr hr j)

/-- LSTM new cell state `c[j] = f * c_prev[j] + i * g`
(lib.rs line 436). -/
def lstmCval (w : Nat → ℝ) (inS H : Nat) (xr hr cr : Nat → ℝ) (j : Nat) :
    ℝ :=
  lstmFval w inS H xr hr j * cr j + lstmIval w inS H xr hr j *
    lstmGval w inS H xr hr j

/-- LSTM new hidden state `h[j] = o * tanh(c[j])` (lib.rs line 438). -/
def lstmHval (w : Nat → ℝ) (inS H : Nat) (xr hr cr : Nat → ℝ) (j : Nat) :
    ℝ :=
  lstmOval w inS H xr hr j * Real.tanh (lstmCval w inS H xr hr cr j)

/-- The four LSTM buffers. -/
structure LstmState where
  h : Nat → ℝ
  c : Nat → ℝ
  hp : Nat → ℝ
  cp : Nat → ℝ

/-- One batch row of `lstm_step` (lib.rs lines 383-440): snapshot the
hidden and cell rows, then write the new cell and hidden rows. -/
def lstmRow (w x : Nat → ℝ) (inS H istr : Nat) (b : Nat) (s : LstmState) :
    LstmState :=
  let ib := b * istr
  let sb := b * H
  let snap := iterN (fun j (t : (Nat → ℝ) × (Nat → ℝ)) =>
      (store t.1 (sb + j) (s.h (sb + j)), store t.2 (sb + j) (s.c (sb + j))))
    H (s.hp, s.cp)
  let hp1 := snap.1
  let cp1 := snap.2
  let ch := iterN (fun j (t : (Nat → ℝ) × (Nat → ℝ)) =>
      (store t.1 (sb + j)
        (lstmCval w inS H (fun k => x (ib + k)) (fun k => hp1 (sb + k))
          (fun k => cp1 (sb + k)) j),
       store t.2 (sb + j)
        (lstmHval w inS H (fun k => x (ib + k)) (fun k => hp1 (sb + k))
          (fun k => cp1 (sb + k)) j)))
    H (s.c, s.h)
  ⟨ch.2, ch.1, hp1, cp1⟩

/-- Model of `lstm_step` (lib.rs lines 338-442).  Returns the four buffers
`(h, c, h_prev, c_prev)` after the call. -/
def lstm_step (weights input h c h_prev c_prev : Option (Nat → ℝ))
    (in_size hidden_size batch_count input_stride : Int) :
    Option (Nat → ℝ) × Option (Nat → ℝ) × Option (Nat → ℝ) ×
      Option (Nat → ℝ) :=
  match weights, input, h, c, h_prev, c_prev with
  | some w, some x, some h0, some c0, some hp0, some cp0 =>
    let inS := to_usize in_size
    let H := to_usize hidden_size
    let bc := to_usize batch_count
    let istr := to_usize input_stride
    if inS = 0 ∨ H = 0 ∨ bc = 0 then (some h0, some c0, some hp0, some cp0)
    else
      let res := iterN (lstmRow w x inS H istr) bc ⟨h0, c0, hp0, cp0⟩
      (some res.h, some res.c, some res.hp, some res.cp)
  | _, _, _, _, _, _ => (h, c, h_prev, c_prev)

/-- RRU candidate for unit `j` (lib.rs lines 492-508): blob blocks in order
`W_c W_r U_c U_r b_c b_r`. -/
def rruCand (w : Nat → ℝ) (inS H : Nat) (xr hr : Nat → ℝ) (j : Nat) : ℝ :=
  Real.tanh (cellPre w inS H 0 (2 * (H * inS)) (2 * (H * inS) + 2 * (H * H))
    xr hr j)

/-- RRU gate for unit `j` (lib.rs lines 494-509). -/
def rruGate (w : Nat → ℝ) (inS H : Nat) (xr hr : Nat → ℝ) (j : Nat) : ℝ :=
  sigmoid (cellPre w inS H (H * inS) (2 * (H * inS) + H * H)
    (2 * (H * inS) + 2 * (H * H) + H) xr hr j)

/-- RRU state update for unit `j` (lib.rs line 511):
`(1 - gate) * h_prev + gate * candidate`. -/
def rruHval (w : Nat → ℝ) (inS H : Nat) (xr hr : Nat → ℝ) (j : Nat) : ℝ :=
  (1 - rruGate w inS H xr hr j) * hr j +
    rruGate w inS H xr hr j * rruCand w inS H xr hr j

/-- The two RRU buffers. -/
structure RruState where
  h : Nat → ℝ
  hp : Nat → ℝ

/-- One batch row of `rru_step` (lib.rs lines 481-512). -/
def rruRow (w x : Nat → ℝ) (inS H istr : Nat) (b : Nat) (s : RruState) :
    RruState :=
  let ib := b * istr
  let sb := b * H
  let hp1 := iterN (fun j t => store t (sb + j) (s.h (sb + j))) H s.hp
  let h1 := iterN (fun j t => store t (sb + j)
      (rruHval w inS H (fun k => x (ib + k)) (fun k => hp1 (sb + k)) j))
    H s.h
  ⟨h1, hp1⟩

/-- Model of `rru_step` (lib.rs lines 450-514).  Returns the two buffers
`(h, h_prev)` after the call. -/
def rru_step (weights input h h_prev : Option (Nat → ℝ))
    (in_size hidden_size batch_count input_stride : Int) :
    Option (Nat → ℝ) × Option (Nat → ℝ) :=
  match weights, input, h, h_prev with
  | some w, some x, some h0, some hp0 =>
    let inS := to_usize in_size
    let H := to_usize hidden_size
    let bc := to_usize batch_count
    let istr := to_usize input_stride
    if inS = 0 ∨ H = 0 ∨ bc = 0 then (some h0, some hp0)
    else
      let res := iterN (rruRow w x inS H istr) bc ⟨h0, hp0⟩
      (some res.h, some res.hp)
  | _, _, _, _ => (h, h_prev)

end

theorem iterN_zero {α : Type} (f : Nat → α → α) (s : α) : iterN f 0 s = s :=
  rfl

theorem iterN_succ {α : Type} (f : Nat → α → α) (n : Nat) (s : α) :
    iterN f (n + 1) s = f n (iterN f n s) := rfl

theorem iterN_add {α : Type} (f : Nat → α → α) (a b : Nat) (s : α) :
    iterN f (a + b) s = iterN (fun i => f (a + i)) b (iterN f a s) := by
  induction b with
  | zero => rfl
  | succ m ih => rw [← Nat.add_assoc, iterN_succ, iterN_succ, ih]

theorem iterN_preserve {α : Type} {f : Nat → α → α} {P : α → Prop}
    (hstep : ∀ i s, P s → P (f i s)) :
    ∀ n s, P s → P (iterN f n s) := by
  intro n
  induction n with
  | zero => intro s hs; exact hs
  | succ m ih => intro s hs; exact hstep m _ (ih s hs)

theorem store_same {α : Type} (buf : Nat → α) (i : Nat) (v : α) :
    store buf i v i = v := by simp [store]

theorem store_other {α : Type} (buf : Nat → α) (i k : Nat) (v : α)
    (h : k ≠ i) : store buf i v k = buf k := by simp [store, h]

/-- A loop storing (possibly state-dependent) values at `base + i` leaves
every offset outside the written window unchanged. -/
theorem iterN_store_frame (f : Nat → (Nat → ℝ) → ℝ) (base n : Nat)
    (s0 : Nat → ℝ) (k : Nat) (hk : ∀ i, i < n → base + i ≠ k) :
    iterN (fun i s => store s (base + i) (f i s)) n s0 k = s0 k := by
  induction n with
  | zero => rfl
  | succ m ih =>
    rw [iterN_succ, store_other]
    · exact ih fun i hi => hk i (Nat.lt_succ_of_lt hi)
    · intro h; exact hk m (Nat.lt_succ_self m) h.symm

/-- Characterisation of a store loop whose values read only a region of the
state disjoint from the written window: the value at `base + o` is the value
function applied to the initial state. -/
theorem iterN_store_get (G : Nat → (Nat → ℝ) → ℝ) (rb rlen base n : Nat)
    (s0 : Nat → ℝ)
    (hG : ∀ o s s', (∀ k, k < rlen → s (rb + k) = s' (rb + k)) → G o s = G o s')
    (hdisj : ∀ i, i < n → ∀ k, k < rlen → base + i ≠ rb + k)
    (o : Nat) (ho : o < n) :
    iterN (fun i s => store s (base + i) (G i s)) n s0 (base + o) = G o s0 := by
  induction n with
  | zero => omega
  | succ m ih =>
    rw [iterN_succ]
    rcases Nat.lt_succ_iff_lt_or_eq.mp ho with h | h
    · rw [store_other]
      · exact ih (fun i hi => hdisj i (Nat.lt_succ_of_lt hi)) h
      · omega
    · subst h
      rw [store_same]
      apply hG
      intro k hk
      exact iterN_store_frame _ _ _ _ _ fun i hi =>
        hdisj i (Nat.lt_succ_of_lt hi) k hk

/-- Special case of `iterN_store_get` for a loop whose stored values do not
read the evolving state at all. -/
theorem iterN_store_get_const (g : Nat → ℝ) (base n : Nat) (s0 : Nat → ℝ)
    (o : Nat) (ho : o < n) :
    iterN (fun i s => store s (base + i) (g i)) n s0 (base + o) = g o := by
  have := iterN_store_get (fun i _ => g i) 0 0 base n s0
    (fun _ _ _ _ => rfl) (fun _ _ k hk => absurd hk (Nat.not_lt_zero k)) o ho
  exact this

/-- A store loop over a pair of buffers splits into two independent loops. -/
theorem iterN_pair {α β : Type} (f : Nat → α → α) (g : Nat → β → β) (n : Nat)
    (p : α × β) :
    iterN (fun i q => (f i q.1, g i q.2)) n p =
      (iterN f n p.1, iterN g n p.2) := by
  induction n with
  | zero => rfl
  | succ m ih => rw [iterN_succ, ih]; rfl

theorem serialAcc_eq (f : Nat → ℝ) (start : Nat) (t : ℝ) (k : Nat) :
    serialAcc f start t k = t + ∑ i ∈ Finset.range k, f (start + i) := by
  induction k with
  | zero => simp [serialAcc]
  | succ m ih => rw [serialAcc, ih, Finset.sum_range_succ, add_assoc]

theorem lanes_sum (f : Nat → ℝ) (q : Nat) :
    (lanes f q).1 + (lanes f q).2.1 + (lanes f q).2.2.1 + (lanes f q).2.2.2 =
      ∑ i ∈ Finset.range (4 * q), f i := by
  induction q with
  | zero => simp [lanes]
  | succ g ih =>
    have h4 : 4 * (g + 1) = 4 * g + 1 + 1 + 1 + 1 := by ring
    rw [lanes, h4, Finset.sum_range_succ, Finset.sum_range_succ,
      Finset.sum_range_succ, Finset.sum_range_succ, ← ih]
    ring

/-- Over `ℝ` the lane-grouped reduction order of the source equals the
mathematical sum of the terms. -/
theorem dotAcc_eq_sum (f : Nat → ℝ) (n : Nat) :
    dotAcc f n = ∑ i ∈ Finset.range n, f i := by
  have hsplit : ∀ a b : Nat, ∑ i ∈ Finset.range (a + b), f i =
      (∑ i ∈ Finset.range a, f i) + ∑ i ∈ Finset.range b, f (a + i) := by
    intro a b
    induction b with
    | zero => simp
    | succ m ih =>
      rw [← Nat.add_assoc, Finset.sum_range_succ, Finset.sum_range_succ, ih,
        add_assoc]
  have hn : n = 4 * (n / 4) + (n - 4 * (n / 4)) := by omega
  rw [dotAcc, serialAcc_eq, lanes_sum]
  conv_rhs => rw [hn, hsplit]

theorem dense_dot_eq_sum (w x : Nat → ℝ) (n : Nat) :
    dense_dot w x n = ∑ i ∈ Finset.range n, w i * x i :=
  dotAcc_eq_sum _ n

theorem dense_dot_mul_eq_sum (w a b : Nat → ℝ) (n : Nat) :
    dense_dot_mul w a b n = ∑ i ∈ Finset.range n, w i * (a i * b i) :=
  dotAcc_eq_sum _ n

theorem dotAcc_congr {f g : Nat → ℝ} (n : Nat) (h : ∀ i, i < n → f i = g i) :
    dotAcc f n = dotAcc g n := by
  rw [dotAcc_eq_sum, dotAcc_eq_sum]
  exact Finset.sum_congr rfl fun i hi => h i (Finset.mem_range.mp hi)

theorem dense_dot_congr {w x x' : Nat → ℝ} (n : Nat)
    (h : ∀ i, i < n → x i = x' i) : dense_dot w x n = dense_dot w x' n :=
  dotAcc_congr n fun i hi => by rw [h i hi]

theorem dense_dot_zero (w x : Nat → ℝ) : dense_dot w x 0 = 0 := by
  rw [dense_dot_eq_sum]; simp

theorem sigmoid_pos (x : ℝ) : 0 < sigmoid x := by
  have h : 0 < 1 + Real.exp (-x) := by positivity
  exact div_pos one_pos h

theorem sigmoid_lt_one (x : ℝ) : sigmoid x < 1 := by
  have hexp : 0 < Real.exp (-x) := Real.exp_pos _
  have h : 0 < 1 + Real.exp (-x) := by positivity
  rw [sigmoid, div_lt_one h]
  linarith

theorem tanh_lt_one (x : ℝ) : Real.tanh x < 1 := by
  rw [Real.tanh_eq_sinh_div_cosh, div_lt_one (Real.cosh_pos x)]
  exact Real.sinh_lt_cosh x

theorem neg_one_lt_tanh (x : ℝ) : -1 < Real.tanh x := by
  rw [Real.tanh_eq_sinh_div_cosh, lt_div_iff₀ (Real.cosh_pos x)]
  have h := Real.sinh_lt_cosh (-x)
  rw [Real.sinh_neg, Real.cosh_neg] at h
  linarith

/-- Convex-combination bound: a sigmoid-gated blend of a value in `[-1, 1]`
with a tanh candidate stays in `[-1, 1]`. -/
theorem gate_blend_mem (g p c : ℝ) (hg0 : 0 < g) (hg1 : g < 1)
    (hp : -1 ≤ p ∧ p ≤ 1) (hc : -1 < c ∧ c < 1) :
    -1 ≤ (1 - g) * p + g * c ∧ (1 - g) * p + g * c ≤ 1 := by
  constructor
  · nlinarith [hp.1, hp.2, hc.1, hc.2]
  · nlinarith [hp.1, hp.2, hc.1, hc.2]

theorem deref_some (f : Nat → ℝ) : deref (some f) = f := rfl

theorem min_eq_if (a b : Nat) : (if a < b then a else b) = min a b := by
  split <;> omega

/-- One Dense row only writes inside its own output window. -/
theorem dense_row_frame (w x : Nat → ℝ) (inS out_limit istr ostr : Nat)
    (hol : out_limit ≤ ostr) (b : Nat) (out : Nat → ℝ) (k : Nat)
    (hk : k < b * ostr ∨ b * ostr + ostr ≤ k) :
    dense_row w x inS out_limit istr ostr b out k = out k := by
  unfold dense_row
  rw [iterN_store_frame, iterN_store_frame]
  · intro i hi; omega
  · intro i hi; omega

/-- Value characterisation of one Dense row: within the row window the
first `out_limit` positions hold the unit values, the rest hold `0`. -/
theorem dense_row_spec (w x : Nat → ℝ) (inS out_limit istr ostr : Nat)
    (_hol : out_limit ≤ ostr) (b : Nat) (out : Nat → ℝ) (o : Nat)
    (ho : o < ostr) :
    dense_row w x inS out_limit istr ostr b out (b * ostr + o) =
      if o < out_limit then denseVal w inS (fun k => x (b * istr + k)) o
      else 0 := by
  unfold dense_row
  split
  · next h => exact iterN_store_get_const _ _ _ _ _ h
  · next h =>
    rw [iterN_store_frame]
    · exact iterN_store_get_const _ _ _ _ _ ho
    · intro i hi; omega

/-- Batch-level characterisation of the Dense output fold. -/
theorem dense_batch_spec (w x out0 : Nat → ℝ)
    (inS out_limit istr ostr bc : Nat) (hol : out_limit ≤ ostr)
    (b o : Nat) (hb : b < bc) (ho : o < ostr) :
    iterN (dense_row w x inS out_limit istr ostr) bc out0 (b * ostr + o) =
      if o < out_limit then denseVal w inS (fun k => x (b * istr + k)) o
      else 0 := by
  induction bc with
  | zero => omega
  | succ m ih =>
    rw [iterN_succ]
    rcases Nat.lt_succ_iff_lt_or_eq.mp hb with h | h
    · rw [dense_row_frame w x inS out_limit istr ostr hol m _ _ (by
        left
        have : (b + 1) * ostr ≤ m * ostr := Nat.mul_le_mul_right ostr h
        have : b * ostr + o < (b + 1) * ostr := by
          rw [Nat.succ_mul]; omega
        omega)]
      exact ih h
    · subst h
      exact dense_row_spec w x inS out_limit istr ostr hol b _ o ho

/-- The Dense batch fold leaves offsets at or beyond `bc * ostr`
unchanged. -/
theorem dense_batch_frame (w x out0 : Nat → ℝ)
    (inS out_limit istr ostr bc : Nat) (hol : out_limit ≤ ostr) (k : Nat)
    (hk : bc * ostr ≤ k) :
    iterN (dense_row w x inS out_limit istr ostr) bc out0 k = out0 k := by
  induction bc with
  | zero => rfl
  | succ m ih =>
    rw [iterN_succ, dense_row_frame w x inS out_limit istr ostr hol m _ _ (by
      right
      have : (m + 1) * ostr ≤ k := le_trans (Nat.mul_le_mul_right ostr
        (Nat.le_refl (m + 1))) hk
      rw [Nat.succ_mul] at this
      omega)]
    exact ih (le_trans (Nat.mul_le_mul_right ostr (Nat.le_succ m)) hk)

/-- Full characterisation of `dense_forward` on non-null pointers: inside
every row window the first `min(out_size, output_stride)` positions hold
`tanh(dot + bias)`, the padding positions hold `0`, and everything at or
beyond `batch_count * output_stride` is untouched. -/
theorem dense_forward_spec (w x out0 : Nat → ℝ)
    (iS oS bcI istrI ostrI : Int) :
    (∀ b o, b < to_usize bcI → o < to_usize ostrI →
      deref (dense_forward (some w) (some x) (some out0) iS oS bcI istrI
        ostrI) (b * to_usize ostrI + o) =
        if o < min (to_usize oS) (to_usize ostrI) then
          denseVal w (to_usize iS) (fun k => x (b * to_usize istrI + k)) o
        else 0) ∧
    (∀ k, to_usize bcI * to_usize ostrI ≤ k →
      deref (dense_forward (some w) (some x) (some out0) iS oS bcI istrI
        ostrI) k = out0 k) := by
  have hunf : dense_forward (some w) (some x) (some out0) iS oS bcI istrI
      ostrI = some (iterN (dense_row w x (to_usize iS)
        (min (to_usize oS) (to_usize ostrI)) (to_usize istrI)
        (to_usize ostrI)) (to_usize bcI) out0) := by
    simp only [dense_forward]
    rw [min_eq_if]
  constructor
  · intro b o hb ho
    rw [hunf, deref_some]
    exact dense_batch_spec _ _ _ _ _ _ _ _ (Nat.min_le_right _ _) b o hb ho
  · intro k hk
    rw [hunf, deref_some]
    exact dense_batch_frame _ _ _ _ _ _ _ _ (Nat.min_le_right _ _) k hk

theorem dense_dot_mul_congr {w a a' b b' : Nat → ℝ} (n : Nat)
    (ha : ∀ i, i < n → a i = a' i) (hb : ∀ i, i < n → b i = b' i) :
    dense_dot_mul w a b n = dense_dot_mul w a' b' n :=
  dotAcc_congr n fun i hi => by rw [ha i hi, hb i hi]

theorem cellPre_congr (w : Nat → ℝ) (inS H wb ub bb : Nat) (xr : Nat → ℝ)
    {hr hr' : Nat → ℝ} (j : Nat) (h : ∀ k, k < H → hr k = hr' k) :
    cellPre w inS H wb ub bb xr hr j = cellPre w inS H wb ub bb xr hr' j := by
  unfold cellPre
  rw [dense_dot_congr H h]

theorem gruZval_congr (w : Nat → ℝ) (inS H : Nat) (xr : Nat → ℝ)
    {hr hr' : Nat → ℝ} (j : Nat) (h : ∀ k, k < H → hr k = hr' k) :
    gruZval w inS H xr hr j = gruZval w inS H xr hr' j := by
  unfold gruZval
  rw [cellPre_congr _ _ _ _ _ _ _ _ h]

theorem gruRval_congr (w : Nat → ℝ) (inS H : Nat) (xr : Nat → ℝ)
    {hr hr' : Nat → ℝ} (j : Nat) (h : ∀ k, k < H → hr k = hr' k) :
    gruRval w inS H xr hr j = gruRval w inS H xr hr' j := by
  unfold gruRval
  rw [cellPre_congr _ _ _ _ _ _ _ _ h]

theorem gruHtilde_congr (w : Nat → ℝ) (inS H : Nat) (xr : Nat → ℝ)
    {rr rr' hr hr' : Nat → ℝ} (j : Nat) (hrr : ∀ k, k < H → rr k = rr' k)
    (hhr : ∀ k, k < H → hr k = hr' k) :
    gruHtilde w inS H xr rr hr j = gruHtilde w inS H xr rr' hr' j := by
  unfold gruHtilde
  rw [dense_dot_mul_congr H hrr hhr]

/-- A paired store loop splits into two independent store loops. -/
theorem iterN_store_pair (v1 v2 : Nat → ℝ) (base n : Nat)
    (p : (Nat → ℝ) × (Nat → ℝ)) :
    iterN (fun i t =>
        (store t.1 (base + i) (v1 i), store t.2 (base + i) (v2 i))) n p =
      (iterN (fun i t => store t (base + i) (v1 i)) n p.1,
       iterN (fun i t => store t (base + i) (v2 i)) n p.2) := by
  induction n with
  | zero => rfl
  | succ m ih => rw [iterN_succ, ih]; rfl

/-- One GRU row only writes inside its own state window. -/
theorem gruRow_frame (w x : Nat → ℝ) (inS H istr : Nat) (b : Nat)
    (s : GruState) (k : Nat) (hk : k < b * H ∨ b * H + H ≤ k) :
    (gruRow w x inS H istr b s).h k = s.h k ∧
    (gruRow w x inS H istr b s).z k = s.z k ∧
    (gruRow w x inS H istr b s).r k = s.r k ∧
    (gruRow w x inS H istr b s).hp k = s.hp k := by
  simp only [gruRow, iterN_store_pair]
  refine ⟨?_, ?_, ?_, ?_⟩ <;>
    exact iterN_store_frame _ _ _ _ _ fun i hi => by omega

/-- Value characterisation of one GRU row: snapshot, both gates and the new
hidden value, all expressed from the pre-row hidden row. -/
theorem gruRow_spec (w x : Nat → ℝ) (inS H istr : Nat) (b : Nat)
    (s : GruState) (j : Nat) (hj : j < H) :
    (gruRow w x inS H istr b s).hp (b * H + j) = s.h (b * H + j) ∧
    (gruRow w x inS H istr b s).z (b * H + j) =
      gruZval w inS H (fun k => x (b * istr + k))
        (fun k => s.h (b * H + k)) j ∧
    (gruRow w x inS H istr b s).r (b * H + j) =
      gruRval w inS H (fun k => x (b * istr + k))
        (fun k => s.h (b * H + k)) j ∧
    (gruRow w x inS H istr b s).h (b * H + j) =
      gruHval w inS H (fun k => x (b * istr + k))
        (fun k => s.h (b * H + k)) j := by
  simp only [gruRow, iterN_store_pair]
  have hhp : ∀ k, k < H →
      iterN (fun i t => store t (b * H + i) (s.h (b * H + i))) H s.hp
        (b * H + k) = s.h (b * H + k) :=
    fun k hk => iterN_store_get_const _ _ _ _ _ hk
  refine ⟨hhp j hj, ?_, ?_, ?_⟩
  · rw [iterN_store_get_const _ _ _ _ _ hj]
    exact gruZval_congr _ _ _ _ _ hhp
  · rw [iterN_store_get_const _ _ _ _ _ hj]
    exact gruRval_congr _ _ _ _ _ hhp
  · rw [iterN_store_get_const _ _ _ _ _ hj]
    have hz : ∀ k, k < H →
        iterN (fun i t => store t (b * H + i)
            (gruZval w inS H (fun k => x (b * istr + k))
              (fun k => iterN (fun i t => store t (b * H + i)
                  (s.h (b * H + i))) H s.hp (b * H + k)) i)) H s.z
          (b * H + k) =
          gruZval w inS H (fun k => x (b * istr + k))
            (fun k => s.h (b * H + k)) k := by
      intro k hk
      rw [iterN_store_get_const _ _ _ _ _ hk]
      exact gruZval_congr _ _ _ _ _ hhp
    have hr : ∀ k, k < H →
        iterN (fun i t => store t (b * H + i)
            (gruRval w inS H (fun k => x (b * istr + k))
              (fun k => iterN (fun i t => store t (b * H + i)
                  (s.h (b * H + i))) H s.hp (b * H + k)) i)) H s.r
          (b * H + k) =
          gruRval w inS H (fun k => x (b * istr + k))
            (fun k => s.h (b * H + k)) k := by
      intro k hk
      rw [iterN_store_get_const _ _ _ _ _ hk]
      exact gruRval_congr _ _ _ _ _ hhp
    rw [hz j hj, hhp j hj, gruHtilde_congr _ _ _ _ _ hr hhp]
    rfl

theorem gruHval_congr (w : Nat → ℝ) (inS H : Nat) (xr : Nat → ℝ)
    {hr hr' : Nat → ℝ} (j : Nat) (hj : j < H)
    (h : ∀ k, k < H → hr k = hr' k) :
    gruHval w inS H xr hr j = gruHval w inS H xr hr' j := by
  unfold gruHval
  rw [gruZval_congr _ _ _ _ _ h, h j hj,
    gruHtilde_congr _ _ _ _ _ (fun k _ => gruRval_congr _ _ _ _ _ h) h]

/-- The GRU batch fold leaves hidden-state offsets at or beyond `n * H`
unchanged: row `b` of `h` is still the pre-call row when row `b` runs. -/
theorem gru_hframe (w x : Nat → ℝ) (inS H istr : Nat) (s0 : GruState)
    (n k : Nat) (hk : n * H ≤ k) :
    (iterN (gruRow w x inS H istr) n s0).h k = s0.h k := by
  induction n with
  | zero => rfl
  | succ m ih =>
    rw [iterN_succ]
    have hs : (m + 1) * H = m * H + H := Nat.succ_mul m H
    rw [(gruRow_frame w x inS H istr m _ k (by omega)).1]
    exact ih (by omega)

/-- Batch-level characterisation of the GRU fold: for every processed row,
the snapshot, both gate rows and the new hidden row, all in terms of the
pre-call hidden row. -/
theorem gru_batch_spec (w x : Nat → ℝ) (inS H istr bc : Nat) (s0 : GruState)
    (b j : Nat) (hb : b < bc) (hj : j < H) :
    (iterN (gruRow w x inS H istr) bc s0).hp (b * H + j) =
      s0.h (b * H + j) ∧
    (iterN (gruRow w x inS H istr) bc s0).z (b * H + j) =
      gruZval w inS H (fun k => x (b * istr + k))
        (fun k => s0.h (b * H + k)) j ∧
    (iterN (gruRow w x inS H istr) bc s0).r (b * H + j) =
      gruRval w inS H (fun k => x (b * istr + k))
        (fun k => s0.h (b * H + k)) j ∧
    (iterN (gruRow w x inS H istr) bc s0).h (b * H + j) =
      gruHval w inS H (fun k => x (b * istr + k))
        (fun k => s0.h (b * H + k)) j := by
  induction bc with
  | zero => omega
  | succ m ih =>
    rw [iterN_succ]
    rcases Nat.lt_succ_iff_lt_or_eq.mp hb with h | h
    · have hlt : b * H + j < m * H := by
        have h1 : (b + 1) * H ≤ m * H := Nat.mul_le_mul_right H h
        have h2 : (b + 1) * H = b * H + H := Nat.succ_mul b H
        omega
      obtain ⟨e1, e2, e3, e4⟩ :=
        gruRow_frame w x inS H istr m (iterN (gruRow w x inS H istr) m s0)
          (b * H + j) (Or.inl hlt)
      rw [e1, e2, e3, e4]
      exact ih h
    · subst h
      have hh : ∀ k, (iterN (gruRow w x inS H istr) b s0).h (b * H + k) =
          s0.h (b * H + k) :=
        fun k => gru_hframe w x inS H istr s0 b (b * H + k)
          (Nat.le_add_right _ _)
      obtain ⟨e1, e2, e3, e4⟩ :=
        gruRow_spec w x inS H istr b (iterN (gruRow w x inS H istr) b s0) j hj
      refine ⟨?_, ?_, ?_, ?_⟩
      · rw [e1, hh j]
      · rw [e2]; exact gruZval_congr _ _ _ _ _ fun k _ => hh k
      · rw [e3]; exact gruRval_congr _ _ _ _ _ fun k _ => hh k
      · rw [e4]; exact gruHval_congr _ _ _ _ j hj fun k _ => hh k

theorem lstmIval_congr (w : Nat → ℝ) (inS H : Nat) (xr : Nat → ℝ)
    {hr hr' : Nat → ℝ} (j : Nat) (h : ∀ k, k < H → hr k = hr' k) :
    lstmIval w inS H xr hr j = lstmIval w inS H xr hr' j := by
  unfold lstmIval
  rw [cellPre_congr _ _ _ _ _ _ _ _ h]

theorem lstmFval_congr (w : Nat → ℝ) (inS H : Nat) (xr : Nat → ℝ)
    {hr hr' : Nat → ℝ} (j : Nat) (h : ∀ k, k < H → hr k = hr' k) :
    lstmFval w inS H xr hr j = lstmFval w inS H xr hr' j := by
  unfold lstmFval
  rw [cellPre_congr _ _ _ _ _ _ _ _ h]

theorem lstmOval_congr (w : Nat → ℝ) (inS H : Nat) (xr : Nat → ℝ)
    {hr hr' : Nat → ℝ} (j : Nat) (h : ∀ k, k < H → hr k = hr' k) :
    lstmOval w inS H xr hr j = lstmOval w inS H xr hr' j := by
  unfold lstmOval
  rw [cellPre_congr _ _ _ _ _ _ _ _ h]

theorem lstmGval_congr (w : Nat → ℝ) (inS H : Nat) (xr : Nat → ℝ)
    {hr hr' : Nat → ℝ} (j : Nat) (h : ∀ k, k < H → hr k = hr' k) :
    lstmGval w inS H xr hr j = lstmGval w inS H xr hr' j := by
  unfold lstmGval
  rw [cellPre_congr _ _ _ _ _ _ _ _ h]

theorem lstmCval_congr (w : Nat → ℝ) (inS H : Nat) (xr : Nat → ℝ)
    {hr hr' cr cr' : Nat → ℝ} (j : Nat) (hj : j < H)
    (hh : ∀ k, k < H → hr k = hr' k) (hc : ∀ k, k < H → cr k = cr' k) :
    lstmCval w inS H xr hr cr j = lstmCval w inS H xr hr' cr' j := by
  unfold lstmCval
  rw [lstmIval_congr _ _ _ _ _ hh, lstmFval_congr _ _ _ _ _ hh,
    lstmGval_congr _ _ _ _ _ hh, hc j hj]

theorem lstmHval_congr (w : Nat → ℝ) (inS H : Nat) (xr : Nat → ℝ)
    {hr hr' cr cr' : Nat → ℝ} (j : Nat) (hj : j < H)
    (hh : ∀ k, k < H → hr k = hr' k) (hc : ∀ k, k < H → cr k = cr' k) :
    lstmHval w inS H xr hr cr j = lstmHval w inS H xr hr' cr' j := by
  unfold lstmHval
  rw [lstmOval_congr _ _ _ _ _ hh, lstmCval_congr _ _ _ _ j hj hh hc]

/-- One LSTM row only writes inside its own state window. -/
theorem lstmRow_frame (w x : Nat → ℝ) (inS H istr : Nat) (b : Nat)
    (s : LstmState) (k : Nat) (hk : k < b * H ∨ b * H + H ≤ k) :
    (lstmRow w x inS H istr b s).h k = s.h k ∧
    (lstmRow w x inS H istr b s).c k = s.c k ∧
    (lstmRow w x inS H istr b s).hp k = s.hp k ∧
    (lstmRow w x inS H istr b s).cp k = s.cp k := by
  simp only [lstmRow, iterN_store_pair]
  refine ⟨?_, ?_, ?_, ?_⟩ <;>
    exact iterN_store_frame _ _ _ _ _ fun i hi => by omega

/-- Value characterisation of one LSTM row: both snapshots and the new cell
and hidden values, all expressed from the pre-row hidden and cell rows. -/
theorem lstmRow_spec (w x : Nat → ℝ) (inS H istr : Nat) (b : Nat)
    (s : LstmState) (j : Nat) (hj : j < H) :
    (lstmRow w x inS H istr b s).hp (b * H + j) = s.h (b * H + j) ∧
    (lstmRow w x inS H istr b s).cp (b * H + j) = s.c (b * H + j) ∧
    (lstmRow w x inS H istr b s).c (b * H + j) =
      lstmCval w inS H (fun k => x (b * istr + k))
        (fun k => s.h (b * H + k)) (fun k => s.c (b * H + k)) j ∧
    (lstmRow w x inS H istr b s).h (b * H + j) =
      lstmHval w inS H (fun k => x (b * istr + k))
        (fun k => s.h (b * H + k)) (fun k => s.c (b * H + k)) j := by
  simp only [lstmRow, iterN_store_pair]
  have hhp : ∀ k, k < H →
      iterN (fun i t => store t (b * H + i) (s.h (b * H + i))) H s.hp
        (b * H + k) = s.h (b * H + k) :=
    fun k hk => iterN_store_get_const _ _ _ _ _ hk
  have hcp : ∀ k, k < H →
      iterN (fun i t => store t (b * H + i) (s.c (b * H + i))) H s.cp
        (b * H + k) = s.c (b * H + k) :=
    fun k hk => iterN_store_get_const _ _ _ _ _ hk
  refine ⟨hhp j hj, hcp j hj, ?_, ?_⟩
  · rw [iterN_store_get_const _ _ _ _ _ hj]
    exact lstmCval_congr _ _ _ _ j hj hhp hcp
  · rw [iterN_store_get_const _ _ _ _ _ hj]
    exact lstmHval_congr _ _ _ _ j hj hhp hcp

/-- The LSTM batch fold leaves hidden and cell offsets at or beyond `n * H`
unchanged. -/
theorem lstm_hcframe (w x : Nat → ℝ) (inS H istr : Nat) (s0 : LstmState)
    (n k : Nat) (hk : n * H ≤ k) :
    (iterN (lstmRow w x inS H istr) n s0).h k = s0.h k ∧
    (iterN (lstmRow w x inS H istr) n s0).c k = s0.c k := by
  induction n with
  | zero => exact ⟨rfl, rfl⟩
  | succ m ih =>
    rw [iterN_succ]
    have hs : (m + 1) * H = m * H + H := Nat.succ_mul m H
    have hfr := lstmRow_frame w x inS H istr m
      (iterN (lstmRow w x inS H istr) m s0) k (by omega)
    rw [hfr.1, hfr.2.1]
    exact ih (by omega)

/-- Batch-level characterisation of the LSTM fold. -/
theorem lstm_batch_spec (w x : Nat → ℝ) (inS H istr bc : Nat)
    (s0 : LstmState) (b j : Nat) (hb : b < bc) (hj : j < H) :
    (iterN (lstmRow w x inS H istr) bc s0).hp (b * H + j) =
      s0.h (b * H + j) ∧
    (iterN (lstmRow w x inS H istr) bc s0).cp (b * H + j) =
      s0.c (b * H + j) ∧
    (iterN (lstmRow w x inS H istr) bc s0).c (b * H + j) =
      lstmCval w inS H (fun k => x (b * istr + k))
        (fun k => s0.h (b * H + k)) (fun k => s0.c (b * H + k)) j ∧
    (iterN (lstmRow w x inS H istr) bc s0).h (b * H + j) =
      lstmHval w inS H (fun k => x (b * istr + k))
        (fun k => s0.h (b * H + k)) (fun k => s0.c (b * H + k)) j := by
  induction bc with
  | zero => omega
  | succ m ih =>
    rw [iterN_succ]
    rcases Nat.lt_succ_iff_lt_or_eq.mp hb with h | h
    · have hlt : b * H + j < m * H := by
        have h1 : (b + 1) * H ≤ m * H := Nat.mul_le_mul_right H h
        have h2 : (b + 1) * H = b * H + H := Nat.succ_mul b H
        omega
      obtain ⟨e1, e2, e3, e4⟩ :=
        lstmRow_frame w x inS H istr m (iterN (lstmRow w x inS H istr) m s0)
          (b * H + j) (Or.inl hlt)
      rw [e1, e2, e3, e4]
      exact ih h
    · subst h
      have hh : ∀ k, (iterN (lstmRow w x inS H istr) b s0).h (b * H + k) =
          s0.h (b * H + k) :=
        fun k => (lstm_hcframe w x inS H istr s0 b (b * H + k)
          (Nat.le_add_right _ _)).1
      have hc : ∀ k, (iterN (lstmRow w x inS H istr) b s0).c (b * H + k) =
          s0.c (b * H + k) :=
        fun k => (lstm_hcframe w x inS H istr s0 b (b * H + k)
          (Nat.le_add_right _ _)).2
      obtain ⟨e1, e2, e3, e4⟩ :=
        lstmRow_spec w x inS H istr b (iterN (lstmRow w x inS H istr) b s0)
          j hj
      refine ⟨?_, ?_, ?_, ?_⟩
      · rw [e1, hh j]
      · rw [e2, hc j]
      · rw [e3]
        exact lstmCval_congr _ _ _ _ j hj (fun k _ => hh k) fun k _ => hc k
      · rw [e4]
        exact lstmHval_congr _ _ _ _ j hj (fun k _ => hh k) fun k _ => hc k

theorem rruCand_congr (w : Nat → ℝ) (inS H : Nat) (xr : Nat → ℝ)
    {hr hr' : Nat → ℝ} (j : Nat) (h : ∀ k, k < H → hr k = hr' k) :
    rruCand w inS H xr hr j = rruCand w inS H xr hr' j := by
  unfold rruCand
  rw [cellPre_congr _ _ _ _ _ _ _ _ h]

theorem rruGate_congr (w : Nat → ℝ) (inS H : Nat) (xr : Nat → ℝ)
    {hr hr' : Nat → ℝ} (j : Nat) (h : ∀ k, k < H → hr k = hr' k) :
    rruGate w inS H xr hr j = rruGate w inS H xr hr' j := by
  unfold rruGate
  rw [cellPre_congr _ _ _ _ _ _ _ _ h]

theorem rruHval_congr (w : Nat → ℝ) (inS H : Nat) (xr : Nat → ℝ)
    {hr hr' : Nat → ℝ} (j : Nat) (hj : j < H)
    (h : ∀ k, k < H → hr k = hr' k) :
    rruHval w inS H xr hr j = rruHval w inS H xr hr' j := by
  unfold rruHval
  rw [rruGate_congr _ _ _ _ _ h, rruCand_congr _ _ _ _ _ h, h j hj]

/-- One RRU row only writes inside its own state window. -/
theorem rruRow_frame (w x : Nat → ℝ) (inS H istr : Nat) (b : Nat)
    (s : RruState) (k : Nat) (hk : k < b * H ∨ b * H + H ≤ k) :
    (rruRow w x inS H istr b s).h k = s.h k ∧
    (rruRow w x inS H istr b s).hp k = s.hp k := by
  simp only [rruRow]
  refine ⟨?_, ?_⟩ <;>
    exact iterN_store_frame _ _ _ _ _ fun i hi => by omega

/-- Value characterisation of one RRU row. -/
theorem rruRow_spec (w x : Nat → ℝ) (inS H istr : Nat) (b : Nat)
    (s : RruState) (j : Nat) (hj : j < H) :
    (rruRow w x inS H istr b s).hp (b * H + j) = s.h (b * H + j) ∧
    (rruRow w x inS H istr b s).h (b * H + j) =
      rruHval w inS H (fun k => x (b * istr + k))
        (fun k => s.h (b * H + k)) j := by
  simp only [rruRow]
  have hhp : ∀ k, k < H →
      iterN (fun i t => store t (b * H + i) (s.h (b * H + i))) H s.hp
        (b * H + k) = s.h (b * H + k) :=
    fun k hk => iterN_store_get_const _ _ _ _ _ hk
  refine ⟨hhp j hj, ?_⟩
  rw [iterN_store_get_const _ _ _ _ _ hj]
  exact rruHval_congr _ _ _ _ j hj hhp

/-- The RRU batch fold leaves hidden offsets at or beyond `n * H`
unchanged. -/
theorem rru_hframe (w x : Nat → ℝ) (inS H istr : Nat) (s0 : RruState)
    (n k : Nat) (hk : n * H ≤ k) :
    (iterN (rruRow w x inS H istr) n s0).h k = s0.h k := by
  induction n with
  | zero => rfl
  | succ m ih =>
    rw [iterN_succ]
    have hs : (m + 1) * H = m * H + H := Nat.succ_mul m H
    rw [(rruRow_frame w x inS H istr m
      (iterN (rruRow w x inS H istr) m s0) k (by omega)).1]
    exact ih (by omega)

/-- Batch-level characterisation of the RRU fold. -/
theorem rru_batch_spec (w x : Nat → ℝ) (inS H istr bc : Nat) (s0 : RruState)
    (b j : Nat) (hb : b < bc) (hj : j < H) :
    (iterN (rruRow w x inS H istr) bc s0).hp (b * H + j) =
      s0.h (b * H + j) ∧
    (iterN (rruRow w x inS H istr) bc s0).h (b * H + j) =
      rruHval w inS H (fun k => x (b * istr + k))
        (fun k => s0.h (b * H + k)) j := by
  induction bc with
  | zero => omega
  | succ m ih =>
    rw [iterN_succ]
    rcases Nat.lt_succ_iff_lt_or_eq.mp hb with h | h
    · have hlt : b * H + j < m * H := by
        have h1 : (b + 1) * H ≤ m * H := Nat.mul_le_mul_right H h
        have h2 : (b + 1) * H = b * H + H := Nat.succ_mul b H
        omega
      obtain ⟨e1, e2⟩ :=
        rruRow_frame w x inS H istr m (iterN (rruRow w x inS H istr) m s0)
          (b * H + j) (Or.inl hlt)
      rw [e1, e2]
      exact ih h
    · subst h
      have hh : ∀ k, (iterN (rruRow w x inS H istr) b s0).h (b * H + k) =
          s0.h (b * H + k) :=
        fun k => rru_hframe w x inS H istr s0 b (b * H + k)
          (Nat.le_add_right _ _)
      obtain ⟨e1, e2⟩ :=
        rruRow_spec w x inS H istr b (iterN (rruRow w x inS H istr) b s0)
          j hj
      refine ⟨?_, ?_⟩
      · rw [e1, hh j]
      · rw [e2]
        exact rruHval_congr _ _ _ _ j hj fun k _ => hh k

theorem denseVal_congr {w : Nat → ℝ} (inS : Nat) {x x' : Nat → ℝ} (o : Nat)
    (h : ∀ k, k < inS → x k = x' k) :
    denseVal w inS x o = denseVal w inS x' o := by
  unfold denseVal
  rw [dense_dot_congr inS h]

theorem mlpMax_le (sizes : Nat → Nat) (lc : Nat) :
    ∀ i, i < lc → sizes i ≤ mlpMax sizes lc := by
  induction lc with
  | zero => intro i hi; omega
  | succ m ih =>
    intro i hi
    unfold mlpMax at ih ⊢
    rw [iterN_succ]
    rcases Nat.lt_succ_iff_lt_or_eq.mp hi with h | h
    · have := ih i h
      split <;> omega
    · subst h
      split <;> omega

theorem mlpMax_attained (sizes : Nat → Nat) (lc : Nat) :
    mlpMax sizes lc = 0 ∨ ∃ i, i < lc ∧ mlpMax sizes lc = sizes i := by
  induction lc with
  | zero => left; rfl
  | succ m ih =>
    unfold mlpMax at ih ⊢
    rw [iterN_succ]
    split
    · right
      exact ⟨m, Nat.lt_succ_self m, rfl⟩
    · rcases ih with h | ⟨i, hi, hv⟩
      · left; exact h
      · right; exact ⟨i, Nat.lt_succ_of_lt hi, hv⟩

theorem mlpMax_two (sizes : Nat → Nat) :
    mlpMax sizes 2 = max (sizes 0) (sizes 1) := by
  unfold mlpMax
  rw [iterN_succ, iterN_succ, iterN_zero]
  split <;> split <;> omega

/-- Invariant of the MLP layer loop: the ping-pong orientation stays good,
the running weight index tracks the block offsets, and the current half
holds the stage values of the last processed layer. -/
theorem mlp_layer_loop (w : Nat → ℝ) (sizes : Nat → Nat) (x0 : Nat → ℝ)
    (mx slen : Nat) (hslen : mx * 2 ≤ slen) (p0 : Ping)
    (hp0 : GoodPing mx slen p0)
    (hcur : ∀ k, k < sizes 0 → p0.scr (p0.curBase + k) = x0 k) :
    ∀ L, (∀ i, i ≤ L → sizes i ≤ mx) →
      GoodPing mx slen (iterN (layerStep w sizes) L (p0, 0)).1 ∧
      (iterN (layerStep w sizes) L (p0, 0)).2 = wOffset sizes L ∧
      ∀ k, k < sizes L →
        (iterN (layerStep w sizes) L (p0, 0)).1.scr
          ((iterN (layerStep w sizes) L (p0, 0)).1.curBase + k) =
          stageVals w sizes x0 L k := by
  intro L
  induction L with
  | zero => intro _; exact ⟨hp0, rfl, hcur⟩
  | succ m ih =>
    intro hsz
    obtain ⟨hgp, hwi, hvals⟩ := ih fun i hi => hsz i (Nat.le_succ_of_le hi)
    have hins : sizes m ≤ mx := hsz m (Nat.le_succ m)
    have houts : sizes (m + 1) ≤ mx := hsz (m + 1) (Nat.le_refl _)
    have hnext : mx ≤ (iterN (layerStep w sizes) m (p0, 0)).1.nextLen := by
      rcases hgp with ⟨_, _, _, h4⟩ | ⟨_, _, _, h4⟩ <;> omega
    have hcnt : min (sizes (m + 1))
        (iterN (layerStep w sizes) m (p0, 0)).1.nextLen = sizes (m + 1) :=
      Nat.min_eq_left (le_trans houts hnext)
    rw [iterN_succ]
    simp only [layerStep, hcnt]
    have hdisj : ∀ i, i < sizes (m + 1) → ∀ k, k < sizes m →
        (iterN (layerStep w sizes) m (p0, 0)).1.nextBase + i ≠
          (iterN (layerStep w sizes) m (p0, 0)).1.curBase + k := by
      intro i hi k hk
      rcases hgp with ⟨h1, h2, h3, _⟩ | ⟨h1, h2, h3, _⟩ <;> omega
    have hget : ∀ k, k < sizes (m + 1) →
        iterN (fun o s => store s
            ((iterN (layerStep w sizes) m (p0, 0)).1.nextBase + o)
            (denseVal (fun k2 => w ((iterN (layerStep w sizes) m (p0, 0)).2 +
                k2)) (sizes m)
              (fun k2 => s
                ((iterN (layerStep w sizes) m (p0, 0)).1.curBase + k2)) o))
          (sizes (m + 1)) (iterN (layerStep w sizes) m (p0, 0)).1.scr
          ((iterN (layerStep w sizes) m (p0, 0)).1.nextBase + k) =
          stageVals w sizes x0 (m + 1) k := by
      intro k hk
      rw [iterN_store_get _ (iterN (layerStep w sizes) m (p0, 0)).1.curBase
        (sizes m) _ _ _
        (fun o s s' hss => denseVal_congr (sizes m) o hss) hdisj k hk]
      show denseVal _ (sizes m) _ k = _
      rw [hwi]
      exact denseVal_congr (sizes m) k hvals
    refine ⟨?_, ?_, ?_⟩
    · rcases hgp with ⟨h1, h2, h3, h4⟩ | ⟨h1, h2, h3, h4⟩
      · right; exact ⟨h3, h4, h1, h2⟩
      · left; exact ⟨h3, h4, h1, h2⟩
    · rw [hwi]; rfl
    · exact hget

theorem layerStep_good (w : Nat → ℝ) (sizes : Nat → Nat) (mx slen l : Nat)
    (q : Ping × Nat) (h : GoodPing mx slen q.1) :
    GoodPing mx slen (layerStep w sizes l q).1 := by
  simp only [layerStep]
  rcases h with ⟨h1, h2, h3, h4⟩ | ⟨h1, h2, h3, h4⟩
  · right; exact ⟨h3, h4, h1, h2⟩
  · left; exact ⟨h3, h4, h1, h2⟩

/-- One MLP row keeps the ping-pong orientation good. -/
theorem mlpRow_ping (w x : Nat → ℝ) (sizes : Nat → Nat)
    (lc istr ostr mx slen : Nat) (b : Nat) (st : Ping × (Nat → ℝ))
    (h : GoodPing mx slen st.1) :
    GoodPing mx slen (mlpRow w x sizes lc istr ostr b st).1 := by
  simp only [mlpRow]
  refine iterN_preserve (fun i q hq => layerStep_good w sizes mx slen i q hq)
    (lc - 1) _ ?_
  rcases h with ⟨h1, h2, h3, h4⟩ | ⟨h1, h2, h3, h4⟩
  · left; exact ⟨h1, h2, h3, h4⟩
  · right; exact ⟨h1, h2, h3, h4⟩

/-- One MLP row only writes output offsets inside its own row window. -/
theorem mlpRow_out_frame (w x : Nat → ℝ) (sizes : Nat → Nat)
    (lc istr ostr : Nat) (b : Nat) (st : Ping × (Nat → ℝ)) (k : Nat)
    (hk : k < b * ostr ∨ b * ostr + ostr ≤ k) :
    (mlpRow w x sizes lc istr ostr b st).2 k = st.2 k := by
  simp only [mlpRow]
  have hol : (if sizes (lc - 1) < ostr then sizes (lc - 1) else ostr) ≤
      ostr := by split <;> omega
  rw [iterN_store_frame, iterN_store_frame]
  · intro i hi; omega
  · intro i hi
    have := Nat.min_le_left
      (if sizes (lc - 1) < ostr then sizes (lc - 1) else ostr)
      (iterN (layerStep w sizes) (lc - 1)
        (⟨iterN (fun k s => store s (st.1.curBase + k) (x (b * istr + k)))
            (sizes 0) st.1.scr,
          st.1.curBase, st.1.curLen, st.1.nextBase, st.1.nextLen⟩,
          0)).1.curLen
    omega

/-- Value characterisation of the output row written by one MLP row. -/
theorem mlpRow_out_spec (w x : Nat → ℝ) (sizes : Nat → Nat)
    (lc istr ostr mx slen : Nat) (_hlc : 2 ≤ lc)
    (hsz : ∀ i, i ≤ lc - 1 → sizes i ≤ mx) (hslen : mx * 2 ≤ slen)
    (b : Nat) (st : Ping × (Nat → ℝ)) (hgp : GoodPing mx slen st.1)
    (o : Nat) (ho : o < ostr) :
    (mlpRow w x sizes lc istr ostr b st).2 (b * ostr + o) =
      if o < min (sizes (lc - 1)) ostr then
        stageVals w sizes (fun k => x (b * istr + k)) (lc - 1) o
      else 0 := by
  simp only [mlpRow]
  have hp1 : GoodPing mx slen
      (⟨iterN (fun k s => store s (st.1.curBase + k) (x (b * istr + k)))
          (sizes 0) st.1.scr,
        st.1.curBase, st.1.curLen, st.1.nextBase, st.1.nextLen⟩ : Ping) := by
    rcases hgp with ⟨h1, h2, h3, h4⟩ | ⟨h1, h2, h3, h4⟩
    · left; exact ⟨h1, h2, h3, h4⟩
    · right; exact ⟨h1, h2, h3, h4⟩
  have hcur : ∀ k, k < sizes 0 →
      (⟨iterN (fun k s => store s (st.1.curBase + k) (x (b * istr + k)))
          (sizes 0) st.1.scr,
        st.1.curBase, st.1.curLen, st.1.nextBase, st.1.nextLen⟩ : Ping).scr
        ((⟨iterN (fun k s => store s (st.1.curBase + k) (x (b * istr + k)))
          (sizes 0) st.1.scr,
        st.1.curBase, st.1.curLen, st.1.nextBase, st.1.nextLen⟩ :
          Ping).curBase + k) = x (b * istr + k) :=
    fun k hk => iterN_store_get_const _ _ _ _ _ hk
  obtain ⟨hgpL, hwiL, hvalsL⟩ :=
    mlp_layer_loop w sizes (fun k => x (b * istr + k)) mx slen hslen _ hp1
      hcur (lc - 1) hsz
  have hcurlen : mx ≤ (iterN (layerStep w sizes) (lc - 1)
      (⟨iterN (fun k s => store s (st.1.curBase + k) (x (b * istr + k)))
          (sizes 0) st.1.scr,
        st.1.curBase, st.1.curLen, st.1.nextBase, st.1.nextLen⟩,
        0)).1.curLen := by
    rcases hgpL with ⟨_, h2, _, _⟩ | ⟨_, h2, _, _⟩ <;> omega
  have holim : (if sizes (lc - 1) < ostr then sizes (lc - 1) else ostr) =
      min (sizes (lc - 1)) ostr := min_eq_if _ _
  have hlast : sizes (lc - 1) ≤ mx := hsz (lc - 1) (Nat.le_refl _)
  have hcnt : min (if sizes (lc - 1) < ostr then sizes (lc - 1) else ostr)
      (iterN (layerStep w sizes) (lc - 1)
        (⟨iterN (fun k s => store s (st.1.curBase + k) (x (b * istr + k)))
            (sizes 0) st.1.scr,
          st.1.curBase, st.1.curLen, st.1.nextBase, st.1.nextLen⟩,
          0)).1.curLen =
      min (sizes (lc - 1)) ostr := by
    rw [holim]
    refine Nat.min_eq_left ?_
    have := Nat.min_le_left (sizes (lc - 1)) ostr
    omega
  rw [hcnt]
  split
  · next hlt =>
    rw [iterN_store_get_const _ _ _ _ _ hlt]
    exact hvalsL o (by omega)
  · next hge =>
    rw [iterN_store_frame _ _ _ _ _ fun i hi => by omega]
    exact iterN_store_get_const _ _ _ _ _ ho

/-- Batch-level value characterisation of the MLP output buffer. -/
theorem mlp_batch_out (w x : Nat → ℝ) (sizes : Nat → Nat)
    (lc istr ostr mx slen bc : Nat) (hlc : 2 ≤ lc)
    (hsz : ∀ i, i ≤ lc - 1 → sizes i ≤ mx) (hslen : mx * 2 ≤ slen)
    (p0 : Ping) (hp0 : GoodPing mx slen p0) (out0 : Nat → ℝ)
    (b o : Nat) (hb : b < bc) (ho : o < ostr) :
    (iterN (mlpRow w x sizes lc istr ostr) bc (p0, out0)).2 (b * ostr + o) =
      if o < min (sizes (lc - 1)) ostr then
        stageVals w sizes (fun k => x (b * istr + k)) (lc - 1) o
      else 0 := by
  have hgood : ∀ n, GoodPing mx slen
      (iterN (mlpRow w x sizes lc istr ostr) n (p0, out0)).1 := by
    intro n
    have := iterN_preserve
      (f := mlpRow w x sizes lc istr ostr)
      (P := fun st => GoodPing mx slen st.1)
      (fun i s hs => mlpRow_ping w x sizes lc istr ostr mx slen i s hs)
      n (p0, out0) hp0
    exact this
  induction bc with
  | zero => omega
  | succ m ih =>
    rw [iterN_succ]
    rcases Nat.lt_succ_iff_lt_or_eq.mp hb with h | h
    · rw [mlpRow_out_frame w x sizes lc istr ostr m _ _ (by
        left
        have h1 : (b + 1) * ostr ≤ m * ostr := Nat.mul_le_mul_right ostr h
        have h2 : (b + 1) * ostr = b * ostr + ostr := Nat.succ_mul b ostr
        omega)]
      exact ih h
    · subst h
      exact mlpRow_out_spec w x sizes lc istr ostr mx slen hlc hsz hslen b _
        (hgood b) o ho

/-- The MLP batch fold leaves output offsets at or beyond `bc * ostr`
unchanged. -/
theorem mlp_batch_out_frame (w x : Nat → ℝ) (sizes : Nat → Nat)
    (lc istr ostr bc : Nat) (p0 : Ping) (out0 : Nat → ℝ) (k : Nat)
    (hk : bc * ostr ≤ k) :
    (iterN (mlpRow w x sizes lc istr ostr) bc (p0, out0)).2 k = out0 k := by
  induction bc with
  | zero => rfl
  | succ m ih =>
    rw [iterN_succ]
    have hs : (m + 1) * ostr = m * ostr + ostr := Nat.succ_mul m ostr
    rw [mlpRow_out_frame w x sizes lc istr ostr m _ _ (by omega)]
    exact ih (by omega)

theorem to_usize_natCast (n : Nat) : to_usize (n : Int) = n := by
  unfold to_usize
  split <;> omega

theorem to_usize_nonpos {v : Int} (h : v ≤ 0) : to_usize v = 0 := by
  unfold to_usize
  rw [if_pos h]

theorem to_usize_pos {v : Int} (h : 0 < v) : (to_usize v : Int) = v := by
  unfold to_usize
  rw [if_neg (by omega)]
  omega

theorem to_usize_max (v : Int) : to_usize (max v 0) = to_usize v := by
  rcases le_total v 0 with h | h
  · rw [max_eq_right h, to_usize_nonpos h, to_usize_nonpos (le_refl 0)]
  · rw [max_eq_left h]

/-- Full characterisation of `mlp_forward`'s output buffer when all guards
pass: every processed row holds the final stage values clamped to the
output stride with zero padding, everything beyond the rows is untouched. -/
theorem mlp_forward_spec (w : Nat → ℝ) (ls : Nat → Int) (x out0 scr0 : Nat → ℝ)
    (lcI bcI istrI ostrI slenI : Int)
    (hlc : 2 ≤ to_usize lcI)
    (hmx : mlpMax (fun i => to_usize (ls i)) (to_usize lcI) ≠ 0)
    (hslen : mlpMax (fun i => to_usize (ls i)) (to_usize lcI) * 2 ≤
      to_usize slenI) :
    (∀ b o, b < to_usize bcI → o < to_usize ostrI →
      deref (mlp_forward (some w) (some ls) (some x) (some out0) lcI bcI
          istrI ostrI (some scr0) slenI).1 (b * to_usize ostrI + o) =
        if o < min (to_usize (ls (to_usize lcI - 1))) (to_usize ostrI) then
          stageVals w (fun i => to_usize (ls i))
            (fun k => x (b * to_usize istrI + k)) (to_usize lcI - 1) o
        else 0) ∧
    (∀ k, to_usize bcI * to_usize ostrI ≤ k →
      deref (mlp_forward (some w) (some ls) (some x) (some out0) lcI bcI
          istrI ostrI (some scr0) slenI).1 k = out0 k) := by
  have h1 : ¬ to_usize lcI < 2 := by omega
  have h3 : ¬ to_usize slenI <
      mlpMax (fun i => to_usize (ls i)) (to_usize lcI) * 2 := by omega
  have hunf : mlp_forward (some w) (some ls) (some x) (some out0) lcI bcI
      istrI ostrI (some scr0) slenI =
      (some (iterN (mlpRow w x (fun i => to_usize (ls i)) (to_usize lcI)
          (to_usize istrI) (to_usize ostrI)) (to_usize bcI)
          (⟨scr0, 0, mlpMax (fun i => to_usize (ls i)) (to_usize lcI),
            mlpMax (fun i => to_usize (ls i)) (to_usize lcI),
            to_usize slenI -
              mlpMax (fun i => to_usize (ls i)) (to_usize lcI)⟩,
            out0)).2,
       some (iterN (mlpRow w x (fun i => to_usize (ls i)) (to_usize lcI)
          (to_usize istrI) (to_usize ostrI)) (to_usize bcI)
          (⟨scr0, 0, mlpMax (fun i => to_usize (ls i)) (to_usize lcI),
            mlpMax (fun i => to_usize (ls i)) (to_usize lcI),
            to_usize slenI -
              mlpMax (fun i => to_usize (ls i)) (to_usize lcI)⟩,
            out0)).1.scr) := by
    simp only [mlp_forward]
    rw [if_neg h1, if_neg hmx, if_neg h3]
  have hgp : GoodPing (mlpMax (fun i => to_usize (ls i)) (to_usize lcI))
      (to_usize slenI)
      (⟨scr0, 0, mlpMax (fun i => to_usize (ls i)) (to_usize lcI),
        mlpMax (fun i => to_usize (ls i)) (to_usize lcI),
        to_usize slenI -
          mlpMax (fun i => to_usize (ls i)) (to_usize lcI)⟩ : Ping) :=
    Or.inl ⟨rfl, rfl, rfl, rfl⟩
  have hsz : ∀ i, i ≤ to_usize lcI - 1 →
      to_usize (ls i) ≤ mlpMax (fun i => to_usize (ls i)) (to_usize lcI) :=
    fun i hi => mlpMax_le (fun i => to_usize (ls i)) (to_usize lcI) i
      (by omega)
  constructor
  · intro b o hb ho
    rw [hunf]
    simp only [deref_some]
    exact mlp_batch_out w x _ _ _ _ _ _ _ hlc hsz hslen _ hgp out0 b o hb ho
  · intro k hk
    rw [hunf]
    simp only [deref_some]
    exact mlp_batch_out_frame w x _ _ _ _ _ _ out0 k hk

/-- Each buffer of the Dense chain holds, on every processed batch row, the
stage values of the corresponding MLP layer. -/
theorem chainBuf_spec (w : Nat → ℝ) (sizes : Nat → Nat) (bc istr : Nat)
    (x : Nat → ℝ) :
    ∀ l b j, b < bc → j < sizes l →
      chainBuf w sizes bc istr x l (b * chainStride sizes istr l + j) =
        stageVals w sizes (fun k => x (b * istr + k)) l j := by
  intro l
  induction l with
  | zero => intro b j hb hj; rfl
  | succ m ih =>
    intro b j hb hj
    have h := (dense_forward_spec (fun k => w (wOffset sizes m + k))
      (chainBuf w sizes bc istr x m) (fun _ => 0) (sizes m : Int)
      (sizes (m + 1) : Int) (bc : Int) (chainStride sizes istr m : Int)
      (sizes (m + 1) : Int)).1 b j
      (by rw [to_usize_natCast]; exact hb)
      (by rw [to_usize_natCast]; exact hj)
    simp only [to_usize_natCast] at h
    rw [if_pos (by rw [Nat.min_self]; exact hj)] at h
    have hcs : chainStride sizes istr (m + 1) = sizes (m + 1) := rfl
    simp only [chainBuf, hcs]
    rw [h]
    simp only [stageVals]
    exact denseVal_congr (sizes m) j fun k hk => ih b k hb hk

theorem denseVal_zero (w' : Nat → ℝ) (hw : ∀ k, w' k = 0) (inS : Nat)
    (xx : Nat → ℝ) (o : Nat) : denseVal w' inS xx o = 0 := by
  unfold denseVal
  have h1 : dense_dot (fun k => w' (o * (inS + 1) + k)) xx inS = 0 := by
    rw [dense_dot_eq_sum]
    apply Finset.sum_eq_zero
    intro i _
    rw [hw]
    ring
  rw [h1, hw, add_zero, Real.tanh_zero]

theorem stageVals_zero (w : Nat → ℝ) (sizes : Nat → Nat) (x0 : Nat → ℝ)
    (hw : ∀ k, w k = 0) (hx : ∀ k, x0 k = 0) :
    ∀ l j, stageVals w sizes x0 l j = 0 := by
  intro l
  induction l with
  | zero => intro j; exact hx j
  | succ m _ =>
    intro j
    exact denseVal_zero _ (fun k => hw _) _ _ j

/-- A loop that only ever stores `0` keeps a zero at any fixed offset. -/
theorem iterN_store_zero_keep (f : Nat → (Nat → ℝ) → ℝ)
    (hf : ∀ i s, f i s = 0) (base n : Nat) (s0 : Nat → ℝ) (p : Nat)
    (hp : s0 p = 0) :
    iterN (fun i s => store s (base + i) (f i s)) n s0 p = 0 := by
  induction n with
  | zero => exact hp
  | succ m ih =>
    rw [iterN_succ]
    unfold store
    split
    · exact hf m _
    · exact ih

/-- With an all-zero weight blob a layer step keeps a zero scratch cell. -/
theorem layerStep_zero_keep (w : Nat → ℝ) (hw : ∀ k, w k = 0)
    (sizes : Nat → Nat) (l : Nat) (q : Ping × Nat) (p : Nat)
    (hp : q.1.scr p = 0) : (layerStep w sizes l q).1.scr p = 0 := by
  simp only [layerStep]
  exact iterN_store_zero_keep _
    (fun o s => denseVal_zero _ (fun k => hw _) _ _ o) _ _ _ p hp

/-- With all-zero weights and input an MLP row keeps a zero scratch cell. -/
theorem mlpRow_zero_keep (w x : Nat → ℝ) (hw : ∀ k, w k = 0)
    (hx : ∀ k, x k = 0) (sizes : Nat → Nat) (lc istr ostr : Nat) (b : Nat)
    (st : Ping × (Nat → ℝ)) (p : Nat) (hp : st.1.scr p = 0) :
    (mlpRow w x sizes lc istr ostr b st).1.scr p = 0 := by
  simp only [mlpRow]
  refine iterN_preserve
    (P := fun (q : Ping × Nat) => q.1.scr p = 0)
    (fun i q hq => layerStep_zero_keep w hw sizes i q p hq) (lc - 1) _ ?_
  exact iterN_store_zero_keep _ (fun k s => hx _) _ _ _ p hp

/-- When every guard passes and at least one batch row is processed,
`mlp_forward` with zero weights and input writes a `0` into some scratch
cell: the call is not a whole-call no-op. -/
theorem mlp_writes_scratch (ls : Nat → Int) (lcI bcI istrI ostrI slenI : Int)
    (hlc : 2 ≤ to_usize lcI)
    (hmx : mlpMax (fun i => to_usize (ls i)) (to_usize lcI) ≠ 0)
    (hslen : mlpMax (fun i => to_usize (ls i)) (to_usize lcI) * 2 ≤
      to_usize slenI)
    (hbc : 1 ≤ to_usize bcI) :
    ∃ p, deref (mlp_forward (some fun _ => 0) (some ls) (some fun _ => 0)
      (some fun _ => 1) lcI bcI istrI ostrI (some fun _ => 1) slenI).2 p =
      0 := by
  have h1 : ¬ to_usize lcI < 2 := by omega
  have h3 : ¬ to_usize slenI <
      mlpMax (fun i => to_usize (ls i)) (to_usize lcI) * 2 := by omega
  set sizes : Nat → Nat := fun i => to_usize (ls i) with hsizes
  set lc := to_usize lcI with hlcd
  set mx := mlpMax sizes lc with hmxd
  set slen := to_usize slenI with hslend
  have hunf : mlp_forward (some fun _ => 0) (some ls) (some fun _ => 0)
      (some fun _ => 1) lcI bcI istrI ostrI (some fun _ => 1) slenI =
      (some (iterN (mlpRow (fun _ => 0) (fun _ => 0) sizes lc
          (to_usize istrI) (to_usize ostrI)) (to_usize bcI)
          (⟨fun _ => 1, 0, mx, mx, slen - mx⟩, fun _ => 1)).2,
       some (iterN (mlpRow (fun _ => 0) (fun _ => 0) sizes lc
          (to_usize istrI) (to_usize ostrI)) (to_usize bcI)
          (⟨fun _ => 1, 0, mx, mx, slen - mx⟩, fun _ => 1)).1.scr) := by
    simp only [mlp_forward]
    rw [if_neg h1, if_neg hmx, if_neg h3]
  rw [hunf]
  simp only [deref_some]
  rcases mlpMax_attained sizes lc with hz | ⟨istar, histar, hval⟩
  · exact absurd hz hmx
  have hpos : 1 ≤ sizes istar := by omega
  -- the state after the first batch row
  have hrow0 : ∃ p, (mlpRow (fun _ => 0) (fun _ => 0) sizes lc
      (to_usize istrI) (to_usize ostrI) 0
      (⟨fun _ => 1, 0, mx, mx, slen - mx⟩, fun _ => 1)).1.scr p = 0 := by
    simp only [mlpRow]
    have hp1 : GoodPing mx slen
        (⟨iterN (fun k s => store s
            ((⟨fun _ => 1, 0, mx, mx, slen - mx⟩ : Ping).curBase + k)
            ((fun _ => (0:ℝ)) (0 * to_usize istrI + k))) (sizes 0)
            (⟨fun _ => 1, 0, mx, mx, slen - mx⟩ : Ping).scr,
          0, mx, mx, slen - mx⟩ : Ping) :=
      Or.inl ⟨rfl, rfl, rfl, rfl⟩
    obtain ⟨hgp, hwi, hvals⟩ := mlp_layer_loop (fun _ => 0) sizes
      (fun k => (fun _ => (0:ℝ)) (0 * to_usize istrI + k)) mx slen hslen _
      hp1 (fun k hk => iterN_store_get_const _ _ _ _ _ hk) istar
      (fun i _ => mlpMax_le sizes lc i (by omega))
    refine ⟨(iterN (layerStep (fun _ => 0) sizes) istar
      (⟨iterN (fun k s => store s
          ((⟨fun _ => 1, 0, mx, mx, slen - mx⟩ : Ping).curBase + k)
          ((fun _ => (0:ℝ)) (0 * to_usize istrI + k))) (sizes 0)
          (⟨fun _ => 1, 0, mx, mx, slen - mx⟩ : Ping).scr,
        0, mx, mx, slen - mx⟩, 0)).1.curBase, ?_⟩
    have hd : lc - 1 = istar + (lc - 1 - istar) := by omega
    rw [hd, iterN_add]
    refine iterN_preserve
      (P := fun (q : Ping × Nat) => q.1.scr
        ((iterN (layerStep (fun _ => 0) sizes) istar
          (⟨iterN (fun k s => store s
              ((⟨fun _ => 1, 0, mx, mx, slen - mx⟩ : Ping).curBase + k)
              ((fun _ => (0:ℝ)) (0 * to_usize istrI + k))) (sizes 0)
              (⟨fun _ => 1, 0, mx, mx, slen - mx⟩ : Ping).scr,
            0, mx, mx, slen - mx⟩, 0)).1.curBase) = 0)
      (fun i q hq => layerStep_zero_keep _ (fun k => rfl) sizes _ q _ hq)
      (lc - 1 - istar) _ ?_
    have h0 := hvals 0 hpos
    rw [stageVals_zero _ _ _ (fun k => rfl) (fun k => rfl) istar 0] at h0
    exact h0
  obtain ⟨p, hp⟩ := hrow0
  refine ⟨p, ?_⟩
  have hbc' : to_usize bcI = 1 + (to_usize bcI - 1) := by omega
  rw [hbc', iterN_add]
  refine iterN_preserve
    (P := fun (st : Ping × (Nat → ℝ)) => st.1.scr p = 0)
    (fun i st hst => mlpRow_zero_keep _ _ (fun k => rfl) (fun k => rfl)
      sizes lc (to_usize istrI) (to_usize ostrI) _ st p hst)
    (to_usize bcI - 1) _ ?_
  exact hp

/-- Claim C1: for every non-null weights/input/output pointer and batch row
`b < batch_count`, after `dense_forward` the output row `b` holds
`tanh(dot(row_o, input_row, in_size) + bias_o)` at position `o` for every
`o < out_limit = min(out_size, output_stride)`, where weight row `o` starts
at blob offset `o * (in_size + 1)` and its bias follows its `in_size`
weights; positions in `[out_limit, output_stride)` hold exactly `0`. -/
theorem C1_dense_forward_rows (w x out0 : Nat → ℝ)
    (iS oS bcI istrI ostrI : Int) (b o : Nat) (hb : b < to_usize bcI)
    (ho : o < to_usize ostrI) :
    (o < min (to_usize oS) (to_usize ostrI) →
      deref (dense_forward (some w) (some x) (some out0) iS oS bcI istrI
        ostrI) (b * to_usize ostrI + o) =
        Real.tanh (dense_dot (fun k => w (o * (to_usize iS + 1) + k))
            (fun k => x (b * to_usize istrI + k)) (to_usize iS) +
          w (o * (to_usize iS + 1) + to_usize iS))) ∧
    (min (to_usize oS) (to_usize ostrI) ≤ o →
      deref (dense_forward (some w) (some x) (some out0) iS oS bcI istrI
        ostrI) (b * to_usize ostrI + o) = 0) := by
  have h := (dense_forward_spec w x out0 iS oS bcI istrI ostrI).1 b o hb ho
  constructor
  · intro hlt
    rw [h, if_pos hlt]
    rfl
  · intro hge
    rw [h, if_neg (by omega)]

theorem C1_witness :
    deref (dense_forward (some fun _ => 1) (some fun _ => 1)
      (some fun _ => 1) 1 1 1 1 2) 0 =
      Real.tanh (dense_dot (fun _ => 1) (fun _ => 1) 1 + 1) ∧
    deref (dense_forward (some fun _ => 1) (some fun _ => 1)
      (some fun _ => 1) 1 1 1 1 2) 1 = 0 :=
  ⟨(C1_dense_forward_rows (fun _ => 1) (fun _ => 1) (fun _ => 1) 1 1 1 1 2
      0 0 (by decide) (by decide)).1 (by decide),
   (C1_dense_forward_rows (fun _ => 1) (fun _ => 1) (fun _ => 1) 1 1 1 1 2
      0 1 (by decide) (by decide)).2 (by decide)⟩

/-- Claim C5: whenever a Dense or MLP call runs its computation (non-null
pointers; for MLP, passing guards) with `output_stride` exceeding the final
logical width, every padding position `o` in `[out_limit, output_stride)`
of every processed batch row holds exactly `0` afterwards, whatever the
output buffer held before the call. -/
theorem C5_padding_zeros :
    (∀ (w x out0 : Nat → ℝ) (iS oS bcI istrI ostrI : Int) (b o : Nat),
      b < to_usize bcI → min (to_usize oS) (to_usize ostrI) ≤ o →
      o < to_usize ostrI →
      deref (dense_forward (some w) (some x) (some out0) iS oS bcI istrI
        ostrI) (b * to_usize ostrI + o) = 0) ∧
    (∀ (w : Nat → ℝ) (ls : Nat → Int) (x out0 scr0 : Nat → ℝ)
      (lcI bcI istrI ostrI slenI : Int) (b o : Nat),
      2 ≤ to_usize lcI →
      mlpMax (fun i => to_usize (ls i)) (to_usize lcI) ≠ 0 →
      mlpMax (fun i => to_usize (ls i)) (to_usize lcI) * 2 ≤
        to_usize slenI →
      b < to_usize bcI →
      min (to_usize (ls (to_usize lcI - 1))) (to_usize ostrI) ≤ o →
      o < to_usize ostrI →
      deref (mlp_forward (some w) (some ls) (some x) (some out0) lcI bcI
        istrI ostrI (some scr0) slenI).1 (b * to_usize ostrI + o) = 0) := by
  constructor
  · intro w x out0 iS oS bcI istrI ostrI b o hb hge ho
    rw [(dense_forward_spec w x out0 iS oS bcI istrI ostrI).1 b o hb ho,
      if_neg (by omega)]
  · intro w ls x out0 scr0 lcI bcI istrI ostrI slenI b o hlc hmx hslen hb
      hge ho
    rw [(mlp_forward_spec w ls x out0 scr0 lcI bcI istrI ostrI slenI hlc hmx
      hslen).1 b o hb ho, if_neg (by omega)]

theorem C5_witness :
    deref (dense_forward (some fun _ => 1) (some fun _ => 1)
      (some fun _ => 1) 1 1 1 1 2) 1 = 0 ∧
    deref (mlp_forward (some fun _ => 1) (some fun _ => 1)
      (some fun _ => 1) (some fun _ => 1) 2 1 1 2 (some fun _ => 1) 2).1
      1 = 0 :=
  ⟨C5_padding_zeros.1 (fun _ => 1) (fun _ => 1) (fun _ => 1) 1 1 1 1 2 0 1
      (by decide) (by decide) (by decide),
   C5_padding_zeros.2 (fun _ => 1) (fun _ => 1) (fun _ => 1) (fun _ => 1)
      (fun _ => 1) 2 1 1 2 2 0 1 (by decide) (by decide) (by decide)
      (by decide) (by decide) (by decide)⟩

/-- Claim C10: `dense_forward` has no zero-size no-op guard: with
`in_size = 0`, non-null pointers and positive remaining sizes it still
writes every output row, storing `tanh(bias_o)` (here `bias_o = w o`, each
weight row being the bias alone) at each `o < min(out_size, output_stride)`
and `0` on the rest of the stride span; the recurrent kernels by contrast
return immediately when `in_size = 0`, leaving all state buffers
unchanged. -/
theorem C10_dense_zero_in_size (w x out0 : Nat → ℝ)
    (oS bcI istrI ostrI : Int) (b o : Nat) (hb : b < to_usize bcI)
    (ho : o < to_usize ostrI) :
    (o < min (to_usize oS) (to_usize ostrI) →
      deref (dense_forward (some w) (some x) (some out0) 0 oS bcI istrI
        ostrI) (b * to_usize ostrI + o) = Real.tanh (w o)) ∧
    (min (to_usize oS) (to_usize ostrI) ≤ o →
      deref (dense_forward (some w) (some x) (some out0) 0 oS bcI istrI
        ostrI) (b * to_usize ostrI + o) = 0) ∧
    (∀ (wp xp h z r hp : Option (Nat → ℝ)) (Hs bcs istrs : Int),
      gru_step wp xp h z r hp 0 Hs bcs istrs = (h, z, r, hp)) ∧
    (∀ (wp xp h c hp cp : Option (Nat → ℝ)) (Hs bcs istrs : Int),
      lstm_step wp xp h c hp cp 0 Hs bcs istrs = (h, c, hp, cp)) ∧
    (∀ (wp xp h hp : Option (Nat → ℝ)) (Hs bcs istrs : Int),
      rru_step wp xp h hp 0 Hs bcs istrs = (h, hp)) := by
  have h := (dense_forward_spec w x out0 0 oS bcI istrI ostrI).1 b o hb ho
  refine ⟨?_, ?_, ?_, ?_, ?_⟩
  · intro hlt
    rw [h, if_pos hlt]
    unfold denseVal
    have h00 : to_usize 0 = 0 := rfl
    rw [h00, dense_dot_zero, zero_add]
    have ho0 : o * (0 + 1) + 0 = o := by omega
    rw [ho0]
  · intro hge
    rw [h, if_neg (by omega)]
  · intro wp xp h z r hp Hs bcs istrs
    rcases wp with _ | w' <;> rcases xp with _ | x' <;>
      rcases h with _ | h' <;> rcases z with _ | z' <;>
      rcases r with _ | r' <;> rcases hp with _ | hp' <;> rfl
  · intro wp xp h c hp cp Hs bcs istrs
    rcases wp with _ | w' <;> rcases xp with _ | x' <;>
      rcases h with _ | h' <;> rcases c with _ | c' <;>
      rcases hp with _ | hp' <;> rcases cp with _ | cp' <;> rfl
  · intro wp xp h hp Hs bcs istrs
    rcases wp with _ | w' <;> rcases xp with _ | x' <;>
      rcases h with _ | h' <;> rcases hp with _ | hp' <;> rfl

theorem C10_witness :
    deref (dense_forward (some fun _ => 1) (some fun _ => 1)
      (some fun _ => 1) 0 1 1 1 1) 0 = Real.tanh 1 ∧
    gru_step (some fun _ => 1) (some fun _ => 1) (some fun _ => 1)
      (some fun _ => 1) (some fun _ => 1) (some fun _ => 1) 0 1 1 1 =
      (some fun _ => 1, some fun _ => 1, some fun _ => 1, some fun _ => 1) :=
  ⟨(C10_dense_zero_in_size (fun _ => 1) (fun _ => 1) (fun _ => 1) 1 1 1 1
      0 0 (by decide) (by decide)).1 (by decide),
   (C10_dense_zero_in_size (fun _ => 1) (fun _ => 1) (fun _ => 1) 1 1 1 1
      0 0 (by decide) (by decide)).2.2.1 (some fun _ => 1) (some fun _ => 1)
      (some fun _ => 1) (some fun _ => 1) (some fun _ => 1) (some fun _ => 1)
      1 1 1⟩

/-- Claim C6: for each of the five entry points, a null required pointer
makes the call return immediately: every output, state and scratch buffer
is exactly the pre-call buffer, with no observable failure (the functions
are total). -/
theorem C6_null_pointer_noop :
    (∀ (wp xp op : Option (Nat → ℝ)) (iS oS bcI istrI ostrI : Int),
      wp = none ∨ xp = none ∨ op = none →
      dense_forward wp xp op iS oS bcI istrI ostrI = op) ∧
    (∀ (wp : Option (Nat → ℝ)) (lsp : Option (Nat → Int))
      (xp op sp : Option (Nat → ℝ)) (lcI bcI istrI ostrI slenI : Int),
      wp = none ∨ lsp = none ∨ xp = none ∨ op = none ∨ sp = none →
      mlp_forward wp lsp xp op lcI bcI istrI ostrI sp slenI = (op, sp)) ∧
    (∀ (wp xp h z r hp : Option (Nat → ℝ)) (iS Hs bcI istrI : Int),
      wp = none ∨ xp = none ∨ h = none ∨ z = none ∨ r = none ∨ hp = none →
      gru_step wp xp h z r hp iS Hs bcI istrI = (h, z, r, hp)) ∧
    (∀ (wp xp h c hp cp : Option (Nat → ℝ)) (iS Hs bcI istrI : Int),
      wp = none ∨ xp = none ∨ h = none ∨ c = none ∨ hp = none ∨
        cp = none →
      lstm_step wp xp h c hp cp iS Hs bcI istrI = (h, c, hp, cp)) ∧
    (∀ (wp xp h hp : Option (Nat → ℝ)) (iS Hs bcI istrI : Int),
      wp = none ∨ xp = none ∨ h = none ∨ hp = none →
      rru_step wp xp h hp iS Hs bcI istrI = (h, hp)) := by
  refine ⟨?_, ?_, ?_, ?_, ?_⟩
  · intro wp xp op iS oS bcI istrI ostrI hnull
    rcases wp with _ | w <;> rcases xp with _ | x <;> rcases op with _ | o <;>
      first
        | rfl
        | simp at hnull
  · intro wp lsp xp op sp lcI bcI istrI ostrI slenI hnull
    rcases wp with _ | w <;> rcases lsp with _ | ls <;>
      rcases xp with _ | x <;> rcases op with _ | o <;>
      rcases sp with _ | s <;>
      first
        | rfl
        | simp at hnull
  · intro wp xp h z r hp iS Hs bcI istrI hnull
    rcases wp with _ | w <;> rcases xp with _ | x <;> rcases h with _ | h <;>
      rcases z with _ | z <;> rcases r with _ | r <;>
      rcases hp with _ | hp <;>
      first
        | rfl
        | simp at hnull
  · intro wp xp h c hp cp iS Hs bcI istrI hnull
    rcases wp with _ | w <;> rcases xp with _ | x <;> rcases h with _ | h <;>
      rcases c with _ | c <;> rcases hp with _ | hp <;>
      rcases cp with _ | cp <;>
      first
        | rfl
        | simp at hnull
  · intro wp xp h hp iS Hs bcI istrI hnull
    rcases wp with _ | w <;> rcases xp with _ | x <;> rcases h with _ | h <;>
      rcases hp with _ | hp <;>
      first
        | rfl
        | simp at hnull

theorem C6_witness :
    dense_forward none (some fun _ => 1) (some fun _ => 1) 1 1 1 1 1 =
      some (fun _ => 1) ∧
    mlp_forward none (some fun _ => 1) (some fun _ => 1) (some fun _ => 1)
      2 1 1 1 (some fun _ => 1) 2 = (some fun _ => 1, some fun _ => 1) ∧
    gru_step none (some fun _ => 1) (some fun _ => 1) (some fun _ => 1)
      (some fun _ => 1) (some fun _ => 1) 1 1 1 1 =
      (some fun _ => 1, some fun _ => 1, some fun _ => 1,
        some fun _ => 1) ∧
    lstm_step none (some fun _ => 1) (some fun _ => 1) (some fun _ => 1)
      (some fun _ => 1) (some fun _ => 1) 1 1 1 1 =
      (some fun _ => 1, some fun _ => 1, some fun _ => 1,
        some fun _ => 1) ∧
    rru_step none (some fun _ => 1) (some fun _ => 1) (some fun _ => 1)
      1 1 1 1 = (some fun _ => 1, some fun _ => 1) :=
  ⟨C6_null_pointer_noop.1 none _ _ 1 1 1 1 1 (Or.inl rfl),
   C6_null_pointer_noop.2.1 none _ _ _ _ 2 1 1 1 2 (Or.inl rfl),
   C6_null_pointer_noop.2.2.1 none _ _ _ _ _ 1 1 1 1 (Or.inl rfl),
   C6_null_pointer_noop.2.2.2.1 none _ _ _ _ _ 1 1 1 1 (Or.inl rfl),
   C6_null_pointer_noop.2.2.2.2 none _ _ _ 1 1 1 1 (Or.inl rfl)⟩

/-- Claim C8: the size sanitizer is total on `Int`, returns `0` on every
non-positive input and the same value as an unsigned count on every
positive input; every size, stride and count parameter of every entry
point passes through it, so clamping any such argument at `0` never
changes a call's result (negative sizes behave as empty counts). -/
theorem C8_sanitizer (vn vp : Int) (hn : vn ≤ 0) (hp : 0 < vp) :
    to_usize vn = 0 ∧ (to_usize vp : Int) = vp ∧
    (∀ (wp xp op : Option (Nat → ℝ)) (iS oS bcI istrI ostrI : Int),
      dense_forward wp xp op (max iS 0) (max oS 0) (max bcI 0)
        (max istrI 0) (max ostrI 0) =
        dense_forward wp xp op iS oS bcI istrI ostrI) ∧
    (∀ (wp : Option (Nat → ℝ)) (ls : Nat → Int)
      (xp op sp : Option (Nat → ℝ)) (lcI bcI istrI ostrI slenI : Int),
      mlp_forward wp (some fun i => max (ls i) 0) xp op (max lcI 0)
        (max bcI 0) (max istrI 0) (max ostrI 0) sp (max slenI 0) =
        mlp_forward wp (some ls) xp op lcI bcI istrI ostrI sp slenI) ∧
    (∀ (wp xp h z r hp : Option (Nat → ℝ)) (iS Hs bcI istrI : Int),
      gru_step wp xp h z r hp (max iS 0) (max Hs 0) (max bcI 0)
        (max istrI 0) = gru_step wp xp h z r hp iS Hs bcI istrI) ∧
    (∀ (wp xp h c hp cp : Option (Nat → ℝ)) (iS Hs bcI istrI : Int),
      lstm_step wp xp h c hp cp (max iS 0) (max Hs 0) (max bcI 0)
        (max istrI 0) = lstm_step wp xp h c hp cp iS Hs bcI istrI) ∧
    (∀ (wp xp h hp : Option (Nat → ℝ)) (iS Hs bcI istrI : Int),
      rru_step wp xp h hp (max iS 0) (max Hs 0) (max bcI 0)
        (max istrI 0) = rru_step wp xp h hp iS Hs bcI istrI) := by
  refine ⟨to_usize_nonpos hn, to_usize_pos hp, ?_, ?_, ?_, ?_, ?_⟩
  · intro wp xp op iS oS bcI istrI ostrI
    rcases wp with _ | w <;> rcases xp with _ | x <;>
      rcases op with _ | o <;> simp only [dense_forward, to_usize_max]
  · intro wp ls xp op sp lcI bcI istrI ostrI slenI
    rcases wp with _ | w <;> rcases xp with _ | x <;>
      rcases op with _ | o <;> rcases sp with _ | s <;>
      simp only [mlp_forward, to_usize_max]
  · intro wp xp h z r hp iS Hs bcI istrI
    rcases wp with _ | w <;> rcases xp with _ | x <;>
      rcases h with _ | h <;> rcases z with _ | z <;>
      rcases r with _ | r <;> rcases hp with _ | hp <;>
      simp only [gru_step, to_usize_max]
  · intro wp xp h c hp cp iS Hs bcI istrI
    rcases wp with _ | w <;> rcases xp with _ | x <;>
      rcases h with _ | h <;> rcases c with _ | c <;>
      rcases hp with _ | hp <;> rcases cp with _ | cp <;>
      simp only [lstm_step, to_usize_max]
  · intro wp xp h hp iS Hs bcI istrI
    rcases wp with _ | w <;> rcases xp with _ | x <;>
      rcases h with _ | h <;> rcases hp with _ | hp <;>
      simp only [rru_step, to_usize_max]

theorem C8_witness :
    to_usize (-3) = 0 ∧ (to_usize 5 : Int) = 5 :=
  ⟨(C8_sanitizer (-3) 5 (by decide) (by decide)).1,
   (C8_sanitizer (-3) 5 (by decide) (by decide)).2.1⟩

/-- Claim C2: for every `gru_step` call with non-null pointers and positive
sanitized `in_size`, `hidden_size`, `batch_count`, and every processed
batch row `b` and unit `j`: `h_prev` ends as the snapshot of the pre-call
`h` row; every unit reads that same pre-update hidden vector, with
`z[j] = sigmoid(Wz_row·x + Uz_row·h_prev + bz[j])`,
`r[j] = sigmoid(Wr_row·x + Ur_row·h_prev + br[j])` and
`h[j] = (1 - z[j])·h_prev[j] + z[j]·tanh(Wh_row·x +
dot_mul(Uh_row, r, h_prev) + bh[j])`, the blob ordered
`W_z W_r W_h U_z U_r U_h b_z b_r b_h`. -/
theorem C2_gru_step_gates (w x h0 z0 r0 hp0 : Nat → ℝ)
    (iS Hs bcI istrI : Int) (hin : 0 < to_usize iS)
    (hH : 0 < to_usize Hs) (hbc : 0 < to_usize bcI) (b j : Nat)
    (hb : b < to_usize bcI) (hj : j < to_usize Hs) :
    deref (gru_step (some w) (some x) (some h0) (some z0) (some r0)
        (some hp0) iS Hs bcI istrI).2.2.2 (b * to_usize Hs + j) =
      h0 (b * to_usize Hs + j) ∧
    deref (gru_step (some w) (some x) (some h0) (some z0) (some r0)
        (some hp0) iS Hs bcI istrI).2.1 (b * to_usize Hs + j) =
      gruZval w (to_usize iS) (to_usize Hs)
        (fun k => x (b * to_usize istrI + k))
        (fun k => h0 (b * to_usize Hs + k)) j ∧
    deref (gru_step (some w) (some x) (some h0) (some z0) (some r0)
        (some hp0) iS Hs bcI istrI).2.2.1 (b * to_usize Hs + j) =
      gruRval w (to_usize iS) (to_usize Hs)
        (fun k => x (b * to_usize istrI + k))
        (fun k => h0 (b * to_usize Hs + k)) j ∧
    deref (gru_step (some w) (some x) (some h0) (some z0) (some r0)
        (some hp0) iS Hs bcI istrI).1 (b * to_usize Hs + j) =
      gruHval w (to_usize iS) (to_usize Hs)
        (fun k => x (b * to_usize istrI + k))
        (fun k => h0 (b * to_usize Hs + k)) j := by
  have hg : ¬(to_usize iS = 0 ∨ to_usize Hs = 0 ∨ to_usize bcI = 0) := by
    omega
  have hunf : gru_step (some w) (some x) (some h0) (some z0) (some r0)
      (some hp0) iS Hs bcI istrI =
      (some (iterN (gruRow w x (to_usize iS) (to_usize Hs)
          (to_usize istrI)) (to_usize bcI) ⟨h0, z0, r0, hp0⟩).h,
       some (iterN (gruRow w x (to_usize iS) (to_usize Hs)
          (to_usize istrI)) (to_usize bcI) ⟨h0, z0, r0, hp0⟩).z,
       some (iterN (gruRow w x (to_usize iS) (to_usize Hs)
          (to_usize istrI)) (to_usize bcI) ⟨h0, z0, r0, hp0⟩).r,
       some (iterN (gruRow w x (to_usize iS) (to_usize Hs)
          (to_usize istrI)) (to_usize bcI) ⟨h0, z0, r0, hp0⟩).hp) := by
    simp only [gru_step]
    rw [if_neg hg]
  obtain ⟨e1, e2, e3, e4⟩ := gru_batch_spec w x (to_usize iS) (to_usize Hs)
    (to_usize istrI) (to_usize bcI) ⟨h0, z0, r0, hp0⟩ b j hb hj
  rw [hunf]
  exact ⟨e1, e2, e3, e4⟩

theorem C2_witness :
    deref (gru_step (some fun _ => 1) (some fun _ => 1) (some fun _ => 1)
      (some fun _ => 1) (some fun _ => 1) (some fun _ => 1)
      1 1 1 1).2.2.2 0 = 1 :=
  (C2_gru_step_gates (fun _ => 1) (fun _ => 1) (fun _ => 1) (fun _ => 1)
    (fun _ => 1) (fun _ => 1) 1 1 1 1 (by decide) (by decide) (by decide)
    0 0 (by decide) (by decide)).1

/-- Claim C3: for every `lstm_step` call with non-null pointers and
positive sanitized sizes, and every processed batch row `b` and unit `j`:
`h_prev` and `c_prev` end as snapshots of the pre-call `h` and `c` rows,
the gates are `i = sigmoid(Wi·x + Ui·h_prev + bi)`,
`f = sigmoid(Wf·x + Uf·h_prev + bf)`, `o = sigmoid(Wo·x + Uo·h_prev + bo)`,
`g = tanh(Wg·x + Ug·h_prev + bg)`, with the new states
`c[j] = f·c_prev[j] + i·g` and `h[j] = o·tanh(c[j])`, the blob ordered
`W_i W_f W_o W_g U_i U_f U_o U_g b_i b_f b_o b_g`. -/
theorem C3_lstm_step_gates (w x h0 c0 hp0 cp0 : Nat → ℝ)
    (iS Hs bcI istrI : Int) (hin : 0 < to_usize iS)
    (hH : 0 < to_usize Hs) (hbc : 0 < to_usize bcI) (b j : Nat)
    (hb : b < to_usize bcI) (hj : j < to_usize Hs) :
    deref (lstm_step (some w) (some x) (some h0) (some c0) (some hp0)
        (some cp0) iS Hs bcI istrI).2.2.1 (b * to_usize Hs + j) =
      h0 (b * to_usize Hs + j) ∧
    deref (lstm_step (some w) (some x) (some h0) (some c0) (some hp0)
        (some cp0) iS Hs bcI istrI).2.2.2 (b * to_usize Hs + j) =
      c0 (b * to_usize Hs + j) ∧
    deref (lstm_step (some w) (some x) (some h0) (some c0) (some hp0)
        (some cp0) iS Hs bcI istrI).2.1 (b * to_usize Hs + j) =
      lstmCval w (to_usize iS) (to_usize Hs)
        (fun k => x (b * to_usize istrI + k))
        (fun k => h0 (b * to_usize Hs + k))
        (fun k => c0 (b * to_usize Hs + k)) j ∧
    deref (lstm_step (some w) (some x) (some h0) (some c0) (some hp0)
        (some cp0) iS Hs bcI istrI).1 (b * to_usize Hs + j) =
      lstmHval w (to_usize iS) (to_usize Hs)
        (fun k => x (b * to_usize istrI + k))
        (fun k => h0 (b * to_usize Hs + k))
        (fun k => c0 (b * to_usize Hs + k)) j := by
  have hg : ¬(to_usize iS = 0 ∨ to_usize Hs = 0 ∨ to_usize bcI = 0) := by
    omega
  have hunf : lstm_step (some w) (some x) (some h0) (some c0) (some hp0)
      (some cp0) iS Hs bcI istrI =
      (some (iterN (lstmRow w x (to_usize iS) (to_usize Hs)
          (to_usize istrI)) (to_usize bcI) ⟨h0, c0, hp0, cp0⟩).h,
       some (iterN (lstmRow w x (to_usize iS) (to_usize Hs)
          (to_usize istrI)) (to_usize bcI) ⟨h0, c0, hp0, cp0⟩).c,
       some (iterN (lstmRow w x (to_usize iS) (to_usize Hs)
          (to_usize istrI)) (to_usize bcI) ⟨h0, c0, hp0, cp0⟩).hp,
       some (iterN (lstmRow w x (to_usize iS) (to_usize Hs)
          (to_usize istrI)) (to_usize bcI) ⟨h0, c0, hp0, cp0⟩).cp) := by
    simp only [lstm_step]
    rw [if_neg hg]
  obtain ⟨e1, e2, e3, e4⟩ := lstm_batch_spec w x (to_usize iS)
    (to_usize Hs) (to_usize istrI) (to_usize bcI) ⟨h0, c0, hp0, cp0⟩ b j
    hb hj
  rw [hunf]
  exact ⟨e1, e2, e3, e4⟩

theorem C3_witness :
    deref (lstm_step (some fun _ => 1) (some fun _ => 1) (some fun _ => 1)
      (some fun _ => 1) (some fun _ => 1) (some fun _ => 1)
      1 1 1 1).2.2.1 0 = 1 :=
  (C3_lstm_step_gates (fun _ => 1) (fun _ => 1) (fun _ => 1) (fun _ => 1)
    (fun _ => 1) (fun _ => 1) 1 1 1 1 (by decide) (by decide) (by decide)
    0 0 (by decide) (by decide)).1

/-- Claim C9: `gru_step` and `rru_step` preserve boundedness of the hidden
state: whatever the pointers and shape, if every pre-call `h` value of a
batch row lies in `[-1, 1]`, then every post-call `h` value of that row
lies in `[-1, 1]` — each written value is the blend
`(1 - gate)·h_prev[j] + gate·candidate` of a sigmoid gate in `(0, 1)` and
a tanh candidate in `(-1, 1)`, and unwritten values are unchanged. -/
theorem C9_hidden_state_bounded :
    (∀ (wp xp zp rp hpp : Option (Nat → ℝ)) (h0 : Nat → ℝ)
      (iS Hs bcI istrI : Int) (b j : Nat), j < to_usize Hs →
      (∀ k, k < to_usize Hs → -1 ≤ h0 (b * to_usize Hs + k) ∧
        h0 (b * to_usize Hs + k) ≤ 1) →
      -1 ≤ deref (gru_step wp xp (some h0) zp rp hpp iS Hs bcI istrI).1
        (b * to_usize Hs + j) ∧
      deref (gru_step wp xp (some h0) zp rp hpp iS Hs bcI istrI).1
        (b * to_usize Hs + j) ≤ 1) ∧
    (∀ (wp xp hpp : Option (Nat → ℝ)) (h0 : Nat → ℝ)
      (iS Hs bcI istrI : Int) (b j : Nat), j < to_usize Hs →
      (∀ k, k < to_usize Hs → -1 ≤ h0 (b * to_usize Hs + k) ∧
        h0 (b * to_usize Hs + k) ≤ 1) →
      -1 ≤ deref (rru_step wp xp (some h0) hpp iS Hs bcI istrI).1
        (b * to_usize Hs + j) ∧
      deref (rru_step wp xp (some h0) hpp iS Hs bcI istrI).1
        (b * to_usize Hs + j) ≤ 1) := by
  constructor
  · intro wp xp zp rp hpp h0 iS Hs bcI istrI b j hj hbound
    rcases wp with _ | w
    · exact hbound j hj
    rcases xp with _ | x
    · exact hbound j hj
    rcases zp with _ | z0
    · exact hbound j hj
    rcases rp with _ | r0
    · exact hbound j hj
    rcases hpp with _ | hp0
    · exact hbound j hj
    by_cases hg : to_usize iS = 0 ∨ to_usize Hs = 0 ∨ to_usize bcI = 0
    · have : gru_step (some w) (some x) (some h0) (some z0) (some r0)
          (some hp0) iS Hs bcI istrI =
          (some h0, some z0, some r0, some hp0) := by
        simp only [gru_step]
        rw [if_pos hg]
      rw [this]
      exact hbound j hj
    · have hunf : gru_step (some w) (some x) (some h0) (some z0) (some r0)
          (some hp0) iS Hs bcI istrI =
          (some (iterN (gruRow w x (to_usize iS) (to_usize Hs)
              (to_usize istrI)) (to_usize bcI) ⟨h0, z0, r0, hp0⟩).h,
           some (iterN (gruRow w x (to_usize iS) (to_usize Hs)
              (to_usize istrI)) (to_usize bcI) ⟨h0, z0, r0, hp0⟩).z,
           some (iterN (gruRow w x (to_usize iS) (to_usize Hs)
              (to_usize istrI)) (to_usize bcI) ⟨h0, z0, r0, hp0⟩).r,
           some (iterN (gruRow w x (to_usize iS) (to_usize Hs)
              (to_usize istrI)) (to_usize bcI) ⟨h0, z0, r0, hp0⟩).hp) := by
        simp only [gru_step]
        rw [if_neg hg]
      by_cases hb : b < to_usize bcI
      · have hval : deref (gru_step (some w) (some x) (some h0) (some z0)
            (some r0) (some hp0) iS Hs bcI istrI).1 (b * to_usize Hs + j) =
            gruHval w (to_usize iS) (to_usize Hs)
              (fun k => x (b * to_usize istrI + k))
              (fun k => h0 (b * to_usize Hs + k)) j := by
          rw [hunf]
          exact (gru_batch_spec w x (to_usize iS) (to_usize Hs)
            (to_usize istrI) (to_usize bcI) ⟨h0, z0, r0, hp0⟩ b j hb
            hj).2.2.2
        rw [hval]
        unfold gruHval
        exact gate_blend_mem _ _ _ (sigmoid_pos _) (sigmoid_lt_one _)
          ⟨(hbound j hj).1, (hbound j hj).2⟩
          ⟨neg_one_lt_tanh _, tanh_lt_one _⟩
      · have hval : deref (gru_step (some w) (some x) (some h0) (some z0)
            (some r0) (some hp0) iS Hs bcI istrI).1 (b * to_usize Hs + j) =
            h0 (b * to_usize Hs + j) := by
          rw [hunf]
          exact gru_hframe w x (to_usize iS) (to_usize Hs)
            (to_usize istrI) ⟨h0, z0, r0, hp0⟩ (to_usize bcI)
            (b * to_usize Hs + j)
            (le_trans (Nat.mul_le_mul_right _ (by omega))
              (Nat.le_add_right _ _))
        rw [hval]
        exact hbound j hj
  · intro wp xp hpp h0 iS Hs bcI istrI b j hj hbound
    rcases wp with _ | w
    · exact hbound j hj
    rcases xp with _ | x
    · exact hbound j hj
    rcases hpp with _ | hp0
    · exact hbound j hj
    by_cases hg : to_usize iS = 0 ∨ to_usize Hs = 0 ∨ to_usize bcI = 0
    · have : rru_step (some w) (some x) (some h0) (some hp0) iS Hs bcI
          istrI = (some h0, some hp0) := by
        simp only [rru_step]
        rw [if_pos hg]
      rw [this]
      exact hbound j hj
    · have hunf : rru_step (some w) (some x) (some h0) (some hp0) iS Hs
          bcI istrI =
          (some (iterN (rruRow w x (to_usize iS) (to_usize Hs)
              (to_usize istrI)) (to_usize bcI) ⟨h0, hp0⟩).h,
           some (iterN (rruRow w x (to_usize iS) (to_usize Hs)
              (to_usize istrI)) (to_usize bcI) ⟨h0, hp0⟩).hp) := by
        simp only [rru_step]
        rw [if_neg hg]
      by_cases hb : b < to_usize bcI
      · have hval : deref (rru_step (some w) (some x) (some h0) (some hp0)
            iS Hs bcI istrI).1 (b * to_usize Hs + j) =
            rruHval w (to_usize iS) (to_usize Hs)
              (fun k => x (b * to_usize istrI + k))
              (fun k => h0 (b * to_usize Hs + k)) j := by
          rw [hunf]
          exact (rru_batch_spec w x (to_usize iS) (to_usize Hs)
            (to_usize istrI) (to_usize bcI) ⟨h0, hp0⟩ b j hb hj).2
        rw [hval]
        unfold rruHval
        exact gate_blend_mem _ _ _ (sigmoid_pos _) (sigmoid_lt_one _)
          ⟨(hbound j hj).1, (hbound j hj).2⟩
          ⟨neg_one_lt_tanh _, tanh_lt_one _⟩
      · have hval : deref (rru_step (some w) (some x) (some h0) (some hp0)
            iS Hs bcI istrI).1 (b * to_usize Hs + j) =
            h0 (b * to_usize Hs + j) := by
          rw [hunf]
          exact rru_hframe w x (to_usize iS) (to_usize Hs)
            (to_usize istrI) ⟨h0, hp0⟩ (to_usize bcI) (b * to_usize Hs + j)
            (le_trans (Nat.mul_le_mul_right _ (by omega))
              (Nat.le_add_right _ _))
        rw [hval]
        exact hbound j hj

theorem C9_witness :
    (-1 ≤ deref (gru_step (some fun _ => 1) (some fun _ => 1)
      (some fun _ => 0) (some fun _ => 1) (some fun _ => 1)
      (some fun _ => 1) 1 1 1 1).1 0 ∧
     deref (gru_step (some fun _ => 1) (some fun _ => 1) (some fun _ => 0)
      (some fun _ => 1) (some fun _ => 1) (some fun _ => 1) 1 1 1 1).1 0 ≤
      1) ∧
    (-1 ≤ deref (rru_step (some fun _ => 1) (some fun _ => 1)
      (some fun _ => 0) (some fun _ => 1) 1 1 1 1).1 0 ∧
     deref (rru_step (some fun _ => 1) (some fun _ => 1) (some fun _ => 0)
      (some fun _ => 1) 1 1 1 1).1 0 ≤ 1) :=
  ⟨C9_hidden_state_bounded.1 (some fun _ => 1) (some fun _ => 1)
      (some fun _ => 1) (some fun _ => 1) (some fun _ => 1) (fun _ => 0)
      1 1 1 1 0 0 (by decide) (fun k _ => by norm_num),
   C9_hidden_state_bounded.2 (some fun _ => 1) (some fun _ => 1)
      (some fun _ => 1) (fun _ => 0) 1 1 1 1 0 0 (by decide)
      (fun k _ => by norm_num)⟩

theorem mlp_noop_guard (ls : Nat → Int) (lcI bcI istrI ostrI slenI : Int)
    (h : to_usize lcI < 2 ∨
      mlpMax (fun i => to_usize (ls i)) (to_usize lcI) = 0 ∨
      to_usize slenI <
        mlpMax (fun i => to_usize (ls i)) (to_usize lcI) * 2 ∨
      to_usize bcI = 0) :
    mlpNoOp ls lcI bcI istrI ostrI slenI := by
  intro w x out scr
  simp only [mlp_forward]
  by_cases h1 : to_usize lcI < 2
  · rw [if_pos h1]
  · rw [if_neg h1]
    by_cases h2 : mlpMax (fun i => to_usize (ls i)) (to_usize lcI) = 0
    · rw [if_pos h2]
    · rw [if_neg h2]
      by_cases h3 : to_usize slenI <
          mlpMax (fun i => to_usize (ls i)) (to_usize lcI) * 2
      · rw [if_pos h3]
      · rw [if_neg h3]
        have hbc : to_usize bcI = 0 := by
          rcases h with h | h | h | h
          · exact absurd h h1
          · exact absurd h h2
          · exact absurd h h3
          · exact h
        rw [hbc]
        rfl

/-- Counterexample to claim C7 as stated: with non-null pointers,
`layer_count = 2`, widths `[1, 1]` and `scratch_len = 2 = 2·max`, but
`batch_count = 0`, none of the no-op conditions listed by the claim holds,
yet the call changes no buffer whatever the buffer contents are. -/
theorem C7_counterexample :
    mlpNoOp (fun _ => 1) 2 0 1 1 2 ∧
    ¬(to_usize 2 < 2 ∨
      mlpMax (fun i => to_usize ((fun _ => (1 : Int)) i)) (to_usize 2) =
        0 ∨
      to_usize 2 <
        mlpMax (fun i => to_usize ((fun _ => (1 : Int)) i)) (to_usize 2) *
          2) := by
  constructor
  · intro w x out scr
    rfl
  · decide

/-- Claim C7 (amended): `mlp_forward` is a whole-call no-op (no buffer is
written, for all buffer contents) exactly when a required pointer is null,
or `layer_count < 2`, or the maximum sanitized layer width is `0`, or
`scratch_len < 2·max`, or — the case the original claim omitted — the
sanitized `batch_count` is `0`; in particular a scratch one element short
of `2·max` is a no-op while `scratch_len = 2·max` (with a positive batch)
proceeds. -/
theorem C7_mlp_noop_conditions :
    (∀ (wp : Option (Nat → ℝ)) (lsp : Option (Nat → Int))
      (xp op sp : Option (Nat → ℝ)) (lcI bcI istrI ostrI slenI : Int),
      wp = none ∨ lsp = none ∨ xp = none ∨ op = none ∨ sp = none →
      mlp_forward wp lsp xp op lcI bcI istrI ostrI sp slenI = (op, sp)) ∧
    (∀ (ls : Nat → Int) (lcI bcI istrI ostrI slenI : Int),
      mlpNoOp ls lcI bcI istrI ostrI slenI ↔
        (to_usize lcI < 2 ∨
         mlpMax (fun i => to_usize (ls i)) (to_usize lcI) = 0 ∨
         to_usize slenI <
           mlpMax (fun i => to_usize (ls i)) (to_usize lcI) * 2 ∨
         to_usize bcI = 0)) := by
  constructor
  · intro wp lsp xp op sp lcI bcI istrI ostrI slenI hnull
    rcases wp with _ | w <;> rcases lsp with _ | ls <;>
      rcases xp with _ | x <;> rcases op with _ | o <;>
      rcases sp with _ | s <;>
      first
        | rfl
        | simp at hnull
  · intro ls lcI bcI istrI ostrI slenI
    constructor
    · intro hno
      by_contra hcond
      push_neg at hcond
      obtain ⟨h1, h2, h3, h4⟩ := hcond
      obtain ⟨p, hp⟩ := mlp_writes_scratch ls lcI bcI istrI ostrI slenI
        (by omega) h2 (by omega) (by omega)
      rw [hno (fun _ => 0) (fun _ => 0) (fun _ => 1) (fun _ => 1)] at hp
      simp [deref] at hp
    · exact mlp_noop_guard ls lcI bcI istrI ostrI slenI

theorem C7_witness :
    mlp_forward none (some fun _ => 1) (some fun _ => 1) (some fun _ => 1)
      2 1 1 1 (some fun _ => 1) 2 = (some fun _ => 1, some fun _ => 1) ∧
    mlp_forward (some fun _ => 0) (some fun _ => 1) (some fun _ => 0)
      (some fun _ => 1) 1 1 1 1 (some fun _ => 1) 2 =
      (some fun _ => 1, some fun _ => 1) :=
  ⟨C7_mlp_noop_conditions.1 none (some fun _ => 1) (some fun _ => 1)
      (some fun _ => 1) (some fun _ => 1) 2 1 1 1 2 (Or.inl rfl),
   (C7_mlp_noop_conditions.2 (fun _ => 1) 1 1 1 1 2).mpr
      (Or.inl (by decide)) (fun _ => 0) (fun _ => 0) (fun _ => 1)
      (fun _ => 1)⟩

theorem dense_forward_some (w x out0 : Nat → ℝ)
    (iS oS bcI istrI ostrI : Int) :
    ∃ g, dense_forward (some w) (some x) (some out0) iS oS bcI istrI
      ostrI = some g :=
  ⟨_, rfl⟩

theorem mlp_fst_some (w : Nat → ℝ) (ls : Nat → Int) (x out0 scr0 : Nat → ℝ)
    (lcI bcI istrI ostrI slenI : Int) (hlc : 2 ≤ to_usize lcI)
    (hmx : mlpMax (fun i => to_usize (ls i)) (to_usize lcI) ≠ 0)
    (hslen : mlpMax (fun i => to_usize (ls i)) (to_usize lcI) * 2 ≤
      to_usize slenI) :
    ∃ f, (mlp_forward (some w) (some ls) (some x) (some out0) lcI bcI
      istrI ostrI (some scr0) slenI).1 = some f := by
  simp only [mlp_forward]
  rw [if_neg (show ¬ to_usize lcI < 2 by omega), if_neg hmx,
    if_neg (show ¬ to_usize slenI <
      mlpMax (fun i => to_usize (ls i)) (to_usize lcI) * 2 by omega)]
  exact ⟨_, rfl⟩

theorem dense_forward_size_congr (wf xf of : Nat → ℝ)
    {a1 a2 a3 a4 a5 b1 b2 b3 b4 b5 : Int}
    (h1 : to_usize a1 = to_usize b1) (h2 : to_usize a2 = to_usize b2)
    (h3 : to_usize a3 = to_usize b3) (h4 : to_usize a4 = to_usize b4)
    (h5 : to_usize a5 = to_usize b5) :
    dense_forward (some wf) (some xf) (some of) a1 a2 a3 a4 a5 =
      dense_forward (some wf) (some xf) (some of) b1 b2 b3 b4 b5 := by
  simp only [dense_forward]
  rw [h1, h2, h3, h4, h5]

/-- Value characterisation of the final buffer of the Dense chain. -/
theorem chainOut_spec (w : Nat → ℝ) (sizes : Nat → Nat) (x out0 : Nat → ℝ)
    (lc bc istr ostr : Nat) (hlc : 2 ≤ lc) :
    (∀ b o, b < bc → o < ostr →
      chainOut w sizes bc istr ostr x out0 lc (b * ostr + o) =
        if o < min (sizes (lc - 1)) ostr then
          stageVals w sizes (fun k => x (b * istr + k)) (lc - 1) o
        else 0) ∧
    (∀ k, bc * ostr ≤ k →
      chainOut w sizes bc istr ostr x out0 lc k = out0 k) := by
  unfold chainOut
  obtain ⟨hv, hfr⟩ := dense_forward_spec
    (fun k => w (wOffset sizes (lc - 2) + k))
    (chainBuf w sizes bc istr x (lc - 2)) out0 (sizes (lc - 2) : Int)
    (sizes (lc - 1) : Int) (bc : Int) (chainStride sizes istr (lc - 2) : Int)
    (ostr : Int)
  simp only [to_usize_natCast] at hv hfr
  constructor
  · intro b o hb ho
    rw [hv b o hb ho]
    split
    · next hlt =>
      have hcb : ∀ k2, k2 < sizes (lc - 2) →
          chainBuf w sizes bc istr x (lc - 2)
            (b * chainStride sizes istr (lc - 2) + k2) =
            stageVals w sizes (fun k => x (b * istr + k)) (lc - 2) k2 :=
        fun k2 hk2 => chainBuf_spec w sizes bc istr x (lc - 2) b k2 hb hk2
      rw [denseVal_congr (sizes (lc - 2)) o hcb]
      have hst : denseVal (fun k2 => w (wOffset sizes (lc - 2) + k2))
          (sizes (lc - 2))
          (stageVals w sizes (fun k => x (b * istr + k)) (lc - 2)) o =
          stageVals w sizes (fun k => x (b * istr + k)) (lc - 2 + 1) o :=
        rfl
      rw [hst, show lc - 2 + 1 = lc - 1 from by omega]
    · rfl
  · exact hfr

/-- The MLP output buffer equals the final buffer of the Dense chain. -/
theorem mlp_eq_chain (w : Nat → ℝ) (ls : Nat → Int) (x out0 scr0 : Nat → ℝ)
    (lcI bcI istrI ostrI slenI : Int) (hlc : 2 ≤ to_usize lcI)
    (hmx : mlpMax (fun i => to_usize (ls i)) (to_usize lcI) ≠ 0)
    (hslen : mlpMax (fun i => to_usize (ls i)) (to_usize lcI) * 2 ≤
      to_usize slenI) :
    (mlp_forward (some w) (some ls) (some x) (some out0) lcI bcI istrI
      ostrI (some scr0) slenI).1 =
      some (chainOut w (fun i => to_usize (ls i)) (to_usize bcI)
        (to_usize istrI) (to_usize ostrI) x out0 (to_usize lcI)) := by
  obtain ⟨f, hf⟩ := mlp_fst_some w ls x out0 scr0 lcI bcI istrI ostrI slenI
    hlc hmx hslen
  have hder : deref (mlp_forward (some w) (some ls) (some x) (some out0)
      lcI bcI istrI ostrI (some scr0) slenI).1 = f := by
    rw [hf]
    rfl
  rw [hf]
  refine congrArg some (funext fun k => ?_)
  obtain ⟨hcv, hcf⟩ := chainOut_spec w (fun i => to_usize (ls i)) x out0
    (to_usize lcI) (to_usize bcI) (to_usize istrI) (to_usize ostrI) hlc
  obtain ⟨hmv, hmf⟩ := mlp_forward_spec w ls x out0 scr0 lcI bcI istrI
    ostrI slenI hlc hmx hslen
  rcases Nat.lt_or_ge k (to_usize bcI * to_usize ostrI) with hk | hk
  · have hostr : 0 < to_usize ostrI := by
      rcases Nat.eq_zero_or_pos (to_usize ostrI) with h0 | h0
      · rw [h0, Nat.mul_zero] at hk
        omega
      · exact h0
    have hbb : k / to_usize ostrI < to_usize bcI := by
      rw [Nat.div_lt_iff_lt_mul hostr]
      exact hk
    have hoo : k % to_usize ostrI < to_usize ostrI := Nat.mod_lt _ hostr
    have hdec : k / to_usize ostrI * to_usize ostrI + k % to_usize ostrI =
        k := by
      rw [Nat.mul_comm]
      exact Nat.div_add_mod k (to_usize ostrI)
    have e1 := hmv (k / to_usize ostrI) (k % to_usize ostrI) hbb hoo
    have e2 := hcv (k / to_usize ostrI) (k % to_usize ostrI) hbb hoo
    rw [hder] at e1
    rw [hdec] at e1 e2
    rw [e1, e2]
  · have e1 := hmf k hk
    rw [hder] at e1
    rw [e1, hcf k hk]

/-- Counterexample to claim C4 as stated: a two-layer configuration
meeting every hypothesis the claim lists (`layer_count = 2`, widths
`[0, 0]`, non-null buffers, `scratch_len = 2 ≥ 2·max = 0`) on which
`mlp_forward` is a no-op (zero maximum width guard) while the single
`dense_forward` call zeroes the output row, so the output buffers
differ. -/
theorem C4_counterexample :
    (mlp_forward (some fun _ => 0) (some fun _ => 0) (some fun _ => 0)
      (some fun _ => 1) 2 1 1 1 (some fun _ => 1) 2).1 ≠
      dense_forward (some fun _ => 0) (some fun _ => 0) (some fun _ => 1)
        0 0 1 1 1 := by
  intro h
  have h1 : deref (mlp_forward (some fun _ => 0) (some fun _ => 0)
      (some fun _ => 0) (some fun _ => 1) 2 1 1 1 (some fun _ => 1) 2).1
      0 = 1 := rfl
  have h2 : deref (dense_forward (some fun _ => 0) (some fun _ => 0)
      (some fun _ => 1) 0 0 1 1 1) 0 = 0 := rfl
  rw [h] at h1
  exact one_ne_zero (h1.symm.trans h2)

/-- Claim C4 (amended): for every two-layer configuration with
`layer_count = 2`, widths `[n0, n1]`, `scratch_len ≥ 2·max(n0, n1)`, valid
non-null buffers **and positive maximum width** (the hypothesis the
original claim omitted), `mlp_forward` produces exactly the same output
buffer as a single `dense_forward` call with `in_size = n0`,
`out_size = n1` and the same weight blob, batch count and strides; more
generally an MLP of `k ≥ 2` layers equals the chain of `k - 1`
`dense_forward` applications over the consecutive weight sub-blocks, the
output of each layer fed as input to the next. -/
theorem C4_mlp_equals_chained_dense :
    (∀ (w : Nat → ℝ) (ls : Nat → Int) (x out0 scr0 : Nat → ℝ)
      (bcI istrI ostrI slenI : Int),
      1 ≤ max (to_usize (ls 0)) (to_usize (ls 1)) →
      max (to_usize (ls 0)) (to_usize (ls 1)) * 2 ≤ to_usize slenI →
      (mlp_forward (some w) (some ls) (some x) (some out0) 2 bcI istrI
        ostrI (some scr0) slenI).1 =
        dense_forward (some w) (some x) (some out0) (ls 0) (ls 1) bcI
          istrI ostrI) ∧
    (∀ (w : Nat → ℝ) (ls : Nat → Int) (x out0 scr0 : Nat → ℝ)
      (lcI bcI istrI ostrI slenI : Int),
      2 ≤ to_usize lcI →
      mlpMax (fun i => to_usize (ls i)) (to_usize lcI) ≠ 0 →
      mlpMax (fun i => to_usize (ls i)) (to_usize lcI) * 2 ≤
        to_usize slenI →
      (mlp_forward (some w) (some ls) (some x) (some out0) lcI bcI istrI
        ostrI (some scr0) slenI).1 =
        some (chainOut w (fun i => to_usize (ls i)) (to_usize bcI)
          (to_usize istrI) (to_usize ostrI) x out0 (to_usize lcI))) := by
  constructor
  · intro w ls x out0 scr0 bcI istrI ostrI slenI hmax hslen
    have hm2 : mlpMax (fun i => to_usize (ls i)) (to_usize 2) =
        max (to_usize (ls 0)) (to_usize (ls 1)) :=
      mlpMax_two _
    have hmx : mlpMax (fun i => to_usize (ls i)) (to_usize 2) ≠ 0 := by
      omega
    have hslen' : mlpMax (fun i => to_usize (ls i)) (to_usize 2) * 2 ≤
        to_usize slenI := by omega
    rw [mlp_eq_chain w ls x out0 scr0 2 bcI istrI ostrI slenI (by decide)
      hmx hslen']
    have hw : (fun k => w (wOffset (fun i => to_usize (ls i))
        (to_usize 2 - 2) + k)) = w :=
      funext fun k => by
        rw [show wOffset (fun i => to_usize (ls i)) (to_usize 2 - 2) = 0
          from rfl, Nat.zero_add]
    have hx : chainBuf w (fun i => to_usize (ls i)) (to_usize bcI)
        (to_usize istrI) x (to_usize 2 - 2) = x := rfl
    unfold chainOut
    rw [hw, hx]
    have hAB : dense_forward (some w) (some x) (some out0)
        (((fun i => to_usize (ls i)) (to_usize 2 - 2) : Nat) : Int)
        (((fun i => to_usize (ls i)) (to_usize 2 - 1) : Nat) : Int)
        ((to_usize bcI : Nat) : Int)
        ((chainStride (fun i => to_usize (ls i)) (to_usize istrI)
          (to_usize 2 - 2) : Nat) : Int)
        ((to_usize ostrI : Nat) : Int) =
        dense_forward (some w) (some x) (some out0) (ls 0) (ls 1) bcI
          istrI ostrI := by
      refine dense_forward_size_congr w x out0 ?_ ?_ ?_ ?_ ?_ <;>
        (rw [to_usize_natCast]; try rfl)
    rw [hAB]
    obtain ⟨g, hg⟩ := dense_forward_some w x out0 (ls 0) (ls 1) bcI istrI
      ostrI
    rw [hg]
    rfl
  · intro w ls x out0 scr0 lcI bcI istrI ostrI slenI hlc hmx hslen
    exact mlp_eq_chain w ls x out0 scr0 lcI bcI istrI ostrI slenI hlc hmx
      hslen

theorem C4_witness :
    (mlp_forward (some fun _ => 1) (some fun _ => 1) (some fun _ => 1)
      (some fun _ => 1) 2 1 1 1 (some fun _ => 1) 2).1 =
      dense_forward (some fun _ => 1) (some fun _ => 1) (some fun _ => 1)
        1 1 1 1 1 :=
  C4_mlp_equals_chained_dense.1 (fun _ => 1) (fun _ => 1) (fun _ => 1)
    (fun _ => 1) (fun _ => 1) 1 1 1 2 (by decide) (by decide)
